import Mathlib

/-!
Verification of the `src/performance` modules of VibeCLI.

The Python classes `MemoryManager` (memory_manager.py), `AsyncBatchProcessor`
(async_batch.py) and `SearchOptimizer` (search_optimizer.py) are shallowly
embedded below.  File sizes are bytes (`Nat`); the megabyte quantities that the
Python code keeps as floats are embedded as rationals: every value the code
manipulates has the form `k / 2^20` with `k` far below `2^53`, so the Python
float arithmetic (sums, differences and comparisons of such values) is exact
and agrees with `ℚ`.

The file system is a parameter: a map from path strings to a `FileView` record
saying whether `stat` succeeds, whether `open`/`read` succeeds, and the bytes
of the file.  `st_size` and the bytes actually read belong to one and the same
snapshot, so `size = content.length`.
-/

namespace VibeCLI

/-- View of one path in the file system: `statOk` models `Path.stat()`
raising `OSError` when false; `readable` models `open`/`read` raising
`PermissionError` when false; `content` holds the file's bytes, so
`st_size = content.length`. -/
structure FileView where
  statOk : Bool
  readable : Bool
  content : List Nat
deriving Repr, DecidableEq

/-- Bytes to megabytes: `n / (1024 * 1024)`, as in the Python code. -/
def mbOfBytes (n : Nat) : ℚ := (n : ℚ) / (1024 * 1024)

/-- Association-list read, the embedding of Python `dict[k]` / `k in dict`. -/
def assocFind {β : Type} (l : List (String × β)) (k : String) : Option β :=
  match l with
  | [] => none
  | (a, b) :: t => if a = k then some b else assocFind t k

/-- Association-list delete, the embedding of Python `del dict[k]`. -/
def assocErase {β : Type} (l : List (String × β)) (k : String) : List (String × β) :=
  match l with
  | [] => []
  | (a, b) :: t => if a = k then t else (a, b) :: assocErase t k

/-- Association-list write, the embedding of Python `dict[k] = v` (an existing
key keeps its position, a new key goes to the end). -/
def assocSet {β : Type} (l : List (String × β)) (k : String) (v : β) : List (String × β) :=
  match l with
  | [] => [(k, v)]
  | (a, b) :: t => if a = k then (k, v) :: t else (a, b) :: assocSet t k v

/-- State of `MemoryManager` (memory_manager.py, lines 27-37). -/
structure MemoryManager where
  max_memory_mb : ℚ
  file_cache : List (String × List Nat)
  cache_sizes : List (String × Nat)
  access_order : List String
  current_memory_mb : ℚ
  peak_memory_mb : ℚ
deriving Repr, DecidableEq

/-- `MemoryManager.__init__` (lines 30-37). -/
def MemoryManager.init (max_memory_mb : ℚ) : MemoryManager :=
  { max_memory_mb := max_memory_mb
    file_cache := []
    cache_sizes := []
    access_order := []
    current_memory_mb := 0
    peak_memory_mb := 0 }

/-- `MemoryManager._update_access_order` (lines 156-160). -/
def MemoryManager.update_access_order (s : MemoryManager) (file_key : String) :
    MemoryManager :=
  { s with access_order :=
      (if file_key ∈ s.access_order then s.access_order.erase file_key
       else s.access_order) ++ [file_key] }

/-- `MemoryManager._evict_oldest_cache` (lines 162-179).  The Python read
`self.cache_sizes[oldest_key]` can only be reached when the key is present in
`cache_sizes` (well-formed states keep the two dicts in sync); `getD 0` is the
total stand-in for that read. -/
def MemoryManager.evict_oldest_cache (s : MemoryManager) : MemoryManager × Bool :=
  match s.access_order with
  | [] => (s, false)
  | oldest_key :: rest =>
    if (assocFind s.file_cache oldest_key).isSome then
      let size_bytes := (assocFind s.cache_sizes oldest_key).getD 0
      let size_mb := mbOfBytes size_bytes
      ({ s with
          access_order := rest
          file_cache := assocErase s.file_cache oldest_key
          cache_sizes := assocErase s.cache_sizes oldest_key
          current_memory_mb := s.current_memory_mb - size_mb }, true)
    else
      ({ s with access_order := rest }, false)

theorem MemoryManager.evict_oldest_cache_length (s : MemoryManager)
    (h : (MemoryManager.evict_oldest_cache s).2 = true) :
    (MemoryManager.evict_oldest_cache s).1.access_order.length < s.access_order.length := by
  cases hao : s.access_order with
  | nil => simp [MemoryManager.evict_oldest_cache, hao] at h
  | cons oldest rest =>
    by_cases hc : (assocFind s.file_cache oldest).isSome
    · simp [MemoryManager.evict_oldest_cache, hao, hc]
    · simp [MemoryManager.evict_oldest_cache, hao, hc] at h

/-- `MemoryManager._ensure_memory_available` (lines 136-140): evict until the
request fits or eviction fails. -/
def MemoryManager.ensure_memory_available (s : MemoryManager) (required_mb : ℚ) :
    MemoryManager :=
  if s.current_memory_mb + required_mb > s.max_memory_mb then
    let p := MemoryManager.evict_oldest_cache s
    if h : p.2 then MemoryManager.ensure_memory_available p.1 required_mb
    else p.1
  else s
termination_by s.access_order.length
decreasing_by
  exact MemoryManager.evict_oldest_cache_length s h

/-- `MemoryManager._add_to_cache` (lines 142-154). -/
def MemoryManager.add_to_cache (s : MemoryManager) (file_key : String)
    (content : List Nat) : MemoryManager :=
  let size_mb := mbOfBytes content.length
  let s1 := { s with
      file_cache := assocSet s.file_cache file_key content
      cache_sizes := assocSet s.cache_sizes file_key content.length
      current_memory_mb := s.current_memory_mb + size_mb }
  let s2 := if s1.current_memory_mb > s1.peak_memory_mb then
      { s1 with peak_memory_mb := s1.current_memory_mb } else s1
  MemoryManager.update_access_order s2 file_key

/-- `MemoryManager.read_file_cached` (lines 72-103).  `fs` is the file system,
`max_file_size` is `settings.max_file_size`.  The returned option is the
decoded content (`decode('utf-8', errors='replace')` never raises, and the
claims only inspect presence, so the raw bytes stand for the string); `none`
embeds every caught exception path. -/
def MemoryManager.read_file_cached (fs : String → FileView) (max_file_size : Nat)
    (s : MemoryManager) (file_path : String) : MemoryManager × Option (List Nat) :=
  let file_key := file_path
  match assocFind s.file_cache file_key with
  | some cached => (MemoryManager.update_access_order s file_key, some cached)
  | none =>
    let fv := fs file_path
    if fv.statOk = false then (s, none)
    else
      let file_size := fv.content.length
      if file_size > max_file_size then (s, none)
      else
        let file_size_mb := mbOfBytes file_size
        let s1 := MemoryManager.ensure_memory_available s file_size_mb
        if fv.readable = false then (s1, none)
        else
          let s2 := if file_size_mb < 10 then
              MemoryManager.add_to_cache s1 file_key fv.content else s1
          (s2, some fv.content)

/-- `MemoryManager.clear_cache` (lines 181-186). -/
def MemoryManager.clear_cache (s : MemoryManager) : MemoryManager :=
  { s with
      file_cache := []
      cache_sizes := []
      access_order := []
      current_memory_mb := 0 }

/-- `MemoryStats` (lines 17-24). -/
structure MemoryStats where
  current_usage_mb : ℚ
  peak_usage_mb : ℚ
  available_mb : ℚ
  files_in_memory : Nat
  cache_size_mb : ℚ
deriving Repr, DecidableEq

/-- `MemoryManager.get_memory_stats` (lines 188-205); `available_mb` comes from
`psutil`, outside the program, so it is a parameter. -/
def MemoryManager.get_memory_stats (s : MemoryManager) (available_mb : ℚ) :
    MemoryStats :=
  { current_usage_mb := s.current_memory_mb
    peak_usage_mb := s.peak_memory_mb
    available_mb := available_mb
    files_in_memory := s.file_cache.length
    cache_size_mb := s.current_memory_mb }

/-! ### Association-list lemmas -/

theorem assocFind_isSome_iff {β : Type} (l : List (String × β)) (k : String) :
    (assocFind l k).isSome ↔ k ∈ l.map Prod.fst := by
  induction l with
  | nil => simp [assocFind]
  | cons p t ih =>
    obtain ⟨a, b⟩ := p
    by_cases hak : a = k
    · subst hak; simp [assocFind]
    · simp [assocFind, hak, ih, Ne.symm hak]

theorem assocFind_eq_none_iff {β : Type} (l : List (String × β)) (k : String) :
    assocFind l k = none ↔ k ∉ l.map Prod.fst := by
  rw [← assocFind_isSome_iff, Option.isSome_iff_exists]
  cases assocFind l k <;> simp

theorem assocFind_assocErase_of_ne {β : Type} (l : List (String × β)) (k j : String)
    (h : j ≠ k) : assocFind (assocErase l k) j = assocFind l j := by
  induction l with
  | nil => simp [assocErase]
  | cons p t ih =>
    obtain ⟨a, b⟩ := p
    simp only [assocErase]
    by_cases hak : a = k
    · rw [if_pos hak]
      simp only [assocFind]
      rw [if_neg (fun hh : a = j => h (hh.symm.trans hak))]
    · rw [if_neg hak]
      simp only [assocFind]
      by_cases haj : a = j
      · rw [if_pos haj, if_pos haj]
      · rw [if_neg haj, if_neg haj]
        exact ih

theorem map_fst_assocErase {β : Type} (l : List (String × β)) (k : String) :
    (assocErase l k).map Prod.fst = (l.map Prod.fst).erase k := by
  induction l with
  | nil => simp [assocErase]
  | cons p t ih =>
    obtain ⟨a, b⟩ := p
    by_cases hak : a = k
    · subst hak
      simp [assocErase, List.erase_cons_head]
    · have hbeq : (a == k) = false := by simp [hak]
      simp [assocErase, hak, List.erase_cons, hbeq, ih]

theorem assocFind_assocErase_self {β : Type} (l : List (String × β)) (k : String)
    (hnd : (l.map Prod.fst).Nodup) : assocFind (assocErase l k) k = none := by
  rw [assocFind_eq_none_iff, map_fst_assocErase]
  exact hnd.not_mem_erase

theorem assocFind_assocErase_none {β : Type} (l : List (String × β)) (k j : String)
    (h : assocFind l j = none) : assocFind (assocErase l k) j = none := by
  rw [assocFind_eq_none_iff] at h ⊢
  intro hmem
  rw [map_fst_assocErase] at hmem
  exact h (List.mem_of_mem_erase hmem)

theorem assocFind_map_snd {β γ : Type} (g : β → γ) (l : List (String × β)) (k : String) :
    assocFind (l.map (fun p => (p.1, g p.2))) k = (assocFind l k).map g := by
  induction l with
  | nil => simp [assocFind]
  | cons p t ih =>
    obtain ⟨a, b⟩ := p
    by_cases hak : a = k <;> simp [assocFind, hak, ih]

theorem assocErase_map_snd {β γ : Type} (g : β → γ) (l : List (String × β)) (k : String) :
    assocErase (l.map (fun p => (p.1, g p.2))) k = (assocErase l k).map (fun p => (p.1, g p.2)) := by
  induction l with
  | nil => simp [assocErase]
  | cons p t ih =>
    obtain ⟨a, b⟩ := p
    by_cases hak : a = k <;> simp [assocErase, hak, ih]

theorem assocSet_of_not_mem {β : Type} (l : List (String × β)) (k : String) (v : β)
    (h : assocFind l k = none) : assocSet l k v = l ++ [(k, v)] := by
  induction l with
  | nil => simp [assocSet]
  | cons p t ih =>
    obtain ⟨a, b⟩ := p
    simp only [assocFind] at h
    by_cases hak : a = k
    · simp [hak] at h
    · simp only [assocSet, if_neg hak, List.cons_append, List.cons.injEq, true_and]
      exact ih (by simpa [hak] using h)

theorem sum_assocErase {β : Type} (f : β → Nat) (l : List (String × β)) (k : String) (v : β)
    (h : assocFind l k = some v) :
    (l.map (fun p => f p.2)).sum = ((assocErase l k).map (fun p => f p.2)).sum + f v := by
  induction l with
  | nil => simp [assocFind] at h
  | cons p t ih =>
    obtain ⟨a, b⟩ := p
    by_cases hak : a = k
    · subst hak
      simp only [assocFind, if_pos rfl] at h
      cases h
      simp [assocErase, Nat.add_comm]
    · simp only [assocFind, if_neg hak] at h
      simp only [assocErase, if_neg hak, List.map_cons, List.sum_cons, ih h]
      ring

/-! ### Well-formed cache states -/

/-- Well-formedness of a `MemoryManager` state: the three containers are in
sync and the tracked total is the sum of the recorded sizes.  Every state the
program can reach satisfies it. -/
structure CacheWF (s : MemoryManager) : Prop where
  nodup_keys : (s.file_cache.map Prod.fst).Nodup
  sizes_eq : s.cache_sizes = s.file_cache.map (fun p => (p.1, p.2.length))
  nodup_order : s.access_order.Nodup
  order_iff : ∀ k, k ∈ s.access_order ↔ (assocFind s.file_cache k).isSome
  sum_eq : s.current_memory_mb = mbOfBytes ((s.file_cache.map (fun p => p.2.length)).sum)

theorem CacheWF.init (m : ℚ) : CacheWF (MemoryManager.init m) := by
  constructor <;> simp [MemoryManager.init, assocFind, mbOfBytes]

theorem CacheWF.clear (s : MemoryManager) : CacheWF (MemoryManager.clear_cache s) := by
  constructor <;> simp [MemoryManager.clear_cache, assocFind, mbOfBytes]

theorem mbOfBytes_add (a b : Nat) : mbOfBytes (a + b) = mbOfBytes a + mbOfBytes b := by
  simp only [mbOfBytes]
  push_cast
  ring

theorem mbOfBytes_nonneg (n : Nat) : 0 ≤ mbOfBytes n := by
  unfold mbOfBytes
  positivity

/-- What `_evict_oldest_cache` does on a well-formed state whose access order
starts with `oldest`: it removes exactly that entry and subtracts exactly its
recorded size. -/
theorem evict_oldest_cache_spec {s : MemoryManager} (h : CacheWF s)
    {oldest : String} {rest : List String} (hao : s.access_order = oldest :: rest)
    {c : List Nat} (hc : assocFind s.file_cache oldest = some c) :
    MemoryManager.evict_oldest_cache s =
      ({ s with
          access_order := rest
          file_cache := assocErase s.file_cache oldest
          cache_sizes := assocErase s.cache_sizes oldest
          current_memory_mb := s.current_memory_mb - mbOfBytes c.length }, true) := by
  have hsz : assocFind s.cache_sizes oldest = some c.length := by
    rw [h.sizes_eq, assocFind_map_snd, hc]
    simp
  simp [MemoryManager.evict_oldest_cache, hao, hc, hsz]

theorem CacheWF.evict {s : MemoryManager} (h : CacheWF s) :
    CacheWF (MemoryManager.evict_oldest_cache s).1 := by
  cases hao : s.access_order with
  | nil =>
    have hid : (MemoryManager.evict_oldest_cache s).1 = s := by
      simp [MemoryManager.evict_oldest_cache, hao]
    rw [hid]; exact h
  | cons oldest rest =>
    have hmem : oldest ∈ s.access_order := by rw [hao]; exact List.mem_cons_self _ _
    have hsome : (assocFind s.file_cache oldest).isSome = true := (h.order_iff oldest).1 hmem
    obtain ⟨c, hc⟩ := Option.isSome_iff_exists.1 hsome
    rw [evict_oldest_cache_spec h hao hc]
    have hndo : rest.Nodup := by
      have := h.nodup_order; rw [hao] at this; exact (List.nodup_cons.1 this).2
    have hnotmem : oldest ∉ rest := by
      have := h.nodup_order; rw [hao] at this; exact (List.nodup_cons.1 this).1
    constructor
    · rw [map_fst_assocErase]
      exact h.nodup_keys.erase _
    · rw [h.sizes_eq, assocErase_map_snd]
    · exact hndo
    · intro k
      by_cases hk : k = oldest
      · subst hk
        simp only [hnotmem, false_iff]
        rw [assocFind_assocErase_self _ _ h.nodup_keys]
        simp
      · simp only
        rw [assocFind_assocErase_of_ne _ _ _ hk]
        have horder := h.order_iff k
        rw [hao] at horder
        simp only [List.mem_cons, hk, false_or] at horder
        exact horder
    · simp only
      rw [h.sum_eq, sum_assocErase (fun b => b.length) s.file_cache oldest c hc,
        mbOfBytes_add]
      ring

theorem evict_oldest_cache_frame (s : MemoryManager) :
    (MemoryManager.evict_oldest_cache s).1.max_memory_mb = s.max_memory_mb ∧
    (MemoryManager.evict_oldest_cache s).1.peak_memory_mb = s.peak_memory_mb := by
  cases hao : s.access_order with
  | nil => simp [MemoryManager.evict_oldest_cache, hao]
  | cons oldest rest =>
    by_cases hc : (assocFind s.file_cache oldest).isSome <;>
      simp [MemoryManager.evict_oldest_cache, hao, hc]

theorem evict_oldest_cache_current_le (s : MemoryManager) :
    (MemoryManager.evict_oldest_cache s).1.current_memory_mb ≤ s.current_memory_mb := by
  cases hao : s.access_order with
  | nil => simp [MemoryManager.evict_oldest_cache, hao]
  | cons oldest rest =>
    by_cases hc : (assocFind s.file_cache oldest).isSome <;>
      simp [MemoryManager.evict_oldest_cache, hao, hc]
    have := mbOfBytes_nonneg ((assocFind s.cache_sizes oldest).getD 0)
    linarith

theorem evict_oldest_cache_find_none {s : MemoryManager} {k : String}
    (h : assocFind s.file_cache k = none) :
    assocFind (MemoryManager.evict_oldest_cache s).1.file_cache k = none := by
  cases hao : s.access_order with
  | nil => simpa [MemoryManager.evict_oldest_cache, hao] using h
  | cons oldest rest =>
    by_cases hc : (assocFind s.file_cache oldest).isSome <;>
      simp [MemoryManager.evict_oldest_cache, hao, hc]
    · exact assocFind_assocErase_none _ _ _ h
    · exact h

theorem ensure_eq_step {s : MemoryManager} {r : ℚ}
    (hgt : s.current_memory_mb + r > s.max_memory_mb)
    (hp : (MemoryManager.evict_oldest_cache s).2 = true) :
    MemoryManager.ensure_memory_available s r =
      MemoryManager.ensure_memory_available (MemoryManager.evict_oldest_cache s).1 r := by
  conv_lhs => rw [MemoryManager.ensure_memory_available]
  rw [if_pos hgt]
  exact dif_pos hp

theorem ensure_eq_stop {s : MemoryManager} {r : ℚ}
    (hgt : s.current_memory_mb + r > s.max_memory_mb)
    (hp : (MemoryManager.evict_oldest_cache s).2 = false) :
    MemoryManager.ensure_memory_available s r = (MemoryManager.evict_oldest_cache s).1 := by
  conv_lhs => rw [MemoryManager.ensure_memory_available]
  rw [if_pos hgt]
  exact dif_neg (by simp [hp])

theorem ensure_eq_id {s : MemoryManager} {r : ℚ}
    (hle : ¬s.current_memory_mb + r > s.max_memory_mb) :
    MemoryManager.ensure_memory_available s r = s := by
  conv_lhs => rw [MemoryManager.ensure_memory_available]
  rw [if_neg hle]

theorem CacheWF.ensure (s : MemoryManager) (r : ℚ) :
    CacheWF s → CacheWF (MemoryManager.ensure_memory_available s r) := by
  induction s, r using MemoryManager.ensure_memory_available.induct with
  | case1 s r hgt p hp ih =>
    intro h
    rw [ensure_eq_step hgt hp]
    exact ih (h.evict)
  | case2 s r hgt p hp =>
    intro h
    rw [ensure_eq_stop hgt (by simpa using hp)]
    exact h.evict
  | case3 s r hle =>
    intro h
    rw [ensure_eq_id hle]
    exact h

theorem ensure_frame (s : MemoryManager) (r : ℚ) :
    (MemoryManager.ensure_memory_available s r).max_memory_mb = s.max_memory_mb ∧
    (MemoryManager.ensure_memory_available s r).peak_memory_mb = s.peak_memory_mb := by
  induction s, r using MemoryManager.ensure_memory_available.induct with
  | case1 s r hgt p hp ih =>
    rw [ensure_eq_step hgt hp]
    obtain ⟨h1, h2⟩ := evict_oldest_cache_frame s
    exact ⟨ih.1.trans h1, ih.2.trans h2⟩
  | case2 s r hgt p hp =>
    rw [ensure_eq_stop hgt (by simpa using hp)]
    exact evict_oldest_cache_frame s
  | case3 s r hle =>
    rw [ensure_eq_id hle]
    exact ⟨rfl, rfl⟩

theorem ensure_current_le (s : MemoryManager) (r : ℚ) :
    (MemoryManager.ensure_memory_available s r).current_memory_mb ≤ s.current_memory_mb := by
  induction s, r using MemoryManager.ensure_memory_available.induct with
  | case1 s r hgt p hp ih =>
    rw [ensure_eq_step hgt hp]
    exact ih.trans (evict_oldest_cache_current_le s)
  | case2 s r hgt p hp =>
    rw [ensure_eq_stop hgt (by simpa using hp)]
    exact evict_oldest_cache_current_le s
  | case3 s r hle =>
    rw [ensure_eq_id hle]

theorem ensure_find_none {s : MemoryManager} {r : ℚ} {k : String}
    (h : assocFind s.file_cache k = none) :
    assocFind (MemoryManager.ensure_memory_available s r).file_cache k = none := by
  induction s, r using MemoryManager.ensure_memory_available.induct with
  | case1 s r hgt p hp ih =>
    rw [ensure_eq_step hgt hp] at *
    exact ih (evict_oldest_cache_find_none h)
  | case2 s r hgt p hp =>
    rw [ensure_eq_stop hgt (by simpa using hp)]
    exact evict_oldest_cache_find_none h
  | case3 s r hle =>
    rw [ensure_eq_id hle]
    exact h

/-- On a well-formed state, eviction can only fail because the access order is
already empty, so `_ensure_memory_available` stops either because the request
now fits or because the cache has been emptied entirely. -/
theorem ensure_post (s : MemoryManager) (r : ℚ) : CacheWF s →
    ¬(MemoryManager.ensure_memory_available s r).current_memory_mb + r >
        (MemoryManager.ensure_memory_available s r).max_memory_mb ∨
    (MemoryManager.ensure_memory_available s r).access_order = [] := by
  induction s, r using MemoryManager.ensure_memory_available.induct with
  | case1 s r hgt p hp ih =>
    intro h
    rw [ensure_eq_step hgt hp] at *
    exact ih h.evict
  | case2 s r hgt p hp =>
    intro h
    have hp2 : (MemoryManager.evict_oldest_cache s).2 = false := by simpa using hp
    rw [ensure_eq_stop hgt hp2]
    cases hao : s.access_order with
    | nil =>
      right
      simp [MemoryManager.evict_oldest_cache, hao]
    | cons oldest rest =>
      exfalso
      have hmem : oldest ∈ s.access_order := by rw [hao]; exact List.mem_cons_self _ _
      have hsome := (h.order_iff oldest).1 hmem
      obtain ⟨c, hc⟩ := Option.isSome_iff_exists.1 hsome
      rw [evict_oldest_cache_spec h hao hc] at hp2
      simp at hp2
  | case3 s r hle =>
    intro h
    rw [ensure_eq_id hle]
    left
    exact hle

/-- A well-formed state with empty access order has an empty cache and a zero
tracked total. -/
theorem CacheWF.empty_order {s : MemoryManager} (h : CacheWF s)
    (hao : s.access_order = []) :
    s.file_cache = [] ∧ s.current_memory_mb = 0 := by
  have hcache : s.file_cache = [] := by
    cases hfc : s.file_cache with
    | nil => rfl
    | cons p t =>
      exfalso
      have hmem : p.1 ∈ s.file_cache.map Prod.fst := by rw [hfc]; simp
      have hsome : (assocFind s.file_cache p.1).isSome := (assocFind_isSome_iff _ _).2 hmem
      have := (h.order_iff p.1).2 hsome
      rw [hao] at this
      simp at this
  refine ⟨hcache, ?_⟩
  rw [h.sum_eq, hcache]
  simp [mbOfBytes]

theorem CacheWF.update_access {s : MemoryManager} (h : CacheWF s) {k : String}
    (hk : (assocFind s.file_cache k).isSome) :
    CacheWF (MemoryManager.update_access_order s k) := by
  have hmem : k ∈ s.access_order := (h.order_iff k).2 hk
  constructor
  · exact h.nodup_keys
  · exact h.sizes_eq
  · simp only [MemoryManager.update_access_order, if_pos hmem]
    rw [List.nodup_append]
    refine ⟨h.nodup_order.erase _, List.nodup_singleton _, ?_⟩
    intro a ha hb
    simp only [List.mem_singleton] at hb
    subst hb
    exact (List.Nodup.mem_erase_iff h.nodup_order).1 ha |>.1 rfl
  · intro j
    simp only [MemoryManager.update_access_order, if_pos hmem, List.mem_append,
      List.mem_singleton]
    rw [← h.order_iff j]
    constructor
    · rintro (hj | rfl)
      · exact List.mem_of_mem_erase hj
      · exact hmem
    · intro hj
      by_cases hjk : j = k
      · exact Or.inr hjk
      · exact Or.inl ((List.mem_erase_of_ne hjk).2 hj)
  · exact h.sum_eq

theorem assocFind_append_single_of_none {β : Type} (l : List (String × β)) (k j : String)
    (v : β) (h : assocFind l j = none) :
    assocFind (l ++ [(k, v)]) j = if k = j then some v else none := by
  induction l with
  | nil => simp [assocFind]
  | cons p t ih =>
    obtain ⟨a, b⟩ := p
    simp only [assocFind] at h ⊢
    by_cases haj : a = j
    · simp [haj] at h
    · rw [if_neg haj] at h ⊢
      exact ih h

theorem assocFind_append_single_of_some {β : Type} (l : List (String × β)) (k j : String)
    (v w : β) (h : assocFind l j = some w) :
    assocFind (l ++ [(k, v)]) j = some w := by
  induction l with
  | nil => simp [assocFind] at h
  | cons p t ih =>
    obtain ⟨a, b⟩ := p
    simp only [assocFind] at h ⊢
    by_cases haj : a = j
    · rwa [if_pos haj] at h ⊢
    · rw [if_neg haj] at h ⊢
      exact ih h

theorem add_to_cache_fields (s : MemoryManager) (k : String) (c : List Nat) :
    (MemoryManager.add_to_cache s k c).file_cache = assocSet s.file_cache k c ∧
    (MemoryManager.add_to_cache s k c).cache_sizes = assocSet s.cache_sizes k c.length ∧
    (MemoryManager.add_to_cache s k c).access_order =
      (if k ∈ s.access_order then s.access_order.erase k else s.access_order) ++ [k] ∧
    (MemoryManager.add_to_cache s k c).current_memory_mb =
      s.current_memory_mb + mbOfBytes c.length ∧
    (MemoryManager.add_to_cache s k c).max_memory_mb = s.max_memory_mb := by
  by_cases hpk : s.current_memory_mb + mbOfBytes c.length > s.peak_memory_mb <;>
    simp [MemoryManager.add_to_cache, MemoryManager.update_access_order, hpk]

/-- `_add_to_cache` of a key that is not yet cached preserves well-formedness. -/
theorem CacheWF.add {s : MemoryManager} (h : CacheWF s) {k : String} {c : List Nat}
    (hk : assocFind s.file_cache k = none) :
    CacheWF (MemoryManager.add_to_cache s k c) := by
  obtain ⟨hf, hs, ho, hcur, _⟩ := add_to_cache_fields s k c
  have hfresh : k ∉ s.file_cache.map Prod.fst := (assocFind_eq_none_iff _ _).1 hk
  have hset_cache : assocSet s.file_cache k c = s.file_cache ++ [(k, c)] :=
    assocSet_of_not_mem _ _ _ hk
  have hsizes_none : assocFind s.cache_sizes k = none := by
    rw [h.sizes_eq, assocFind_map_snd, hk]
    rfl
  have hset_sizes : assocSet s.cache_sizes k c.length = s.cache_sizes ++ [(k, c.length)] :=
    assocSet_of_not_mem _ _ _ hsizes_none
  have horder_not : k ∉ s.access_order := by
    rw [h.order_iff, hk]
    simp
  constructor
  · rw [hf, hset_cache]
    simp only [List.map_append, List.map_cons, List.map_nil]
    rw [List.nodup_append]
    exact ⟨h.nodup_keys, List.nodup_singleton _, by
      intro a ha hb
      simp only [List.mem_singleton] at hb
      subst hb
      exact hfresh ha⟩
  · rw [hs, hset_sizes, hf, hset_cache, h.sizes_eq]
    simp
  · rw [ho, if_neg horder_not]
    rw [List.nodup_append]
    exact ⟨h.nodup_order, List.nodup_singleton _, by
      intro a ha hb
      simp only [List.mem_singleton] at hb
      subst hb
      exact horder_not ha⟩
  · intro j
    rw [ho, if_neg horder_not, hf, hset_cache]
    simp only [List.mem_append, List.mem_singleton]
    by_cases hj : j = k
    · subst hj
      rw [assocFind_append_single_of_none _ _ _ _ hk]
      simp [horder_not]
    · constructor
      · rintro (hjo | rfl)
        · obtain ⟨w, hw⟩ := Option.isSome_iff_exists.1 ((h.order_iff j).1 hjo)
          rw [assocFind_append_single_of_some _ _ _ _ _ hw]
          rfl
        · exact absurd rfl hj
      · intro hjs
        left
        rw [h.order_iff j]
        cases hw : assocFind s.file_cache j with
        | some w => simp
        | none =>
          rw [assocFind_append_single_of_none _ _ _ _ hw,
            if_neg (fun hh : k = j => hj hh.symm)] at hjs
          simp at hjs
  · rw [hcur, hf, hset_cache, h.sum_eq]
    simp only [List.map_append, List.map_cons, List.map_nil, List.sum_append,
      List.sum_cons, List.sum_nil, Nat.add_zero]
    rw [mbOfBytes_add]

/-- `read_file_cached` preserves well-formedness. -/
theorem CacheWF.read (fs : String → FileView) (mfs : Nat) {s : MemoryManager}
    (h : CacheWF s) (path : String) :
    CacheWF (MemoryManager.read_file_cached fs mfs s path).1 := by
  cases hfind : assocFind s.file_cache path with
  | some cached =>
    have hres : (MemoryManager.read_file_cached fs mfs s path).1 =
        MemoryManager.update_access_order s path := by
      simp [MemoryManager.read_file_cached, hfind]
    rw [hres]
    exact h.update_access (by rw [hfind]; rfl)
  | none =>
    simp only [MemoryManager.read_file_cached, hfind]
    split_ifs with h1 h2 h3 h4
    · exact h
    · exact h
    · exact CacheWF.ensure s _ h
    · exact (CacheWF.ensure s _ h).add (ensure_find_none hfind)
    · exact CacheWF.ensure s _ h

theorem read_file_cached_max (fs : String → FileView) (mfs : Nat) (s : MemoryManager)
    (path : String) :
    (MemoryManager.read_file_cached fs mfs s path).1.max_memory_mb = s.max_memory_mb := by
  cases hfind : assocFind s.file_cache path with
  | some cached => simp [MemoryManager.read_file_cached, hfind, MemoryManager.update_access_order]
  | none =>
    simp only [MemoryManager.read_file_cached, hfind]
    split_ifs with h1 h2 h3 h4
    · rfl
    · rfl
    · exact (ensure_frame s _).1
    · exact (add_to_cache_fields _ _ _).2.2.2.2.trans (ensure_frame s _).1
    · exact (ensure_frame s _).1

theorem CacheWF.sum_sizes {s : MemoryManager} (h : CacheWF s) :
    s.current_memory_mb = mbOfBytes ((s.cache_sizes.map Prod.snd).sum) := by
  rw [h.sum_eq, h.sizes_eq, List.map_map]
  rfl

/-- When the ceiling is at least the 10 MB cache-eligibility bound, the tracked
total stays below the ceiling across `read_file_cached`. -/
theorem read_file_cached_bound (fs : String → FileView) (mfs : Nat) {s : MemoryManager}
    (h : CacheWF s) (hmax : 10 ≤ s.max_memory_mb)
    (hcur : s.current_memory_mb ≤ s.max_memory_mb) (path : String) :
    (MemoryManager.read_file_cached fs mfs s path).1.current_memory_mb ≤
      (MemoryManager.read_file_cached fs mfs s path).1.max_memory_mb := by
  rw [read_file_cached_max]
  cases hfind : assocFind s.file_cache path with
  | some cached =>
    have hres : (MemoryManager.read_file_cached fs mfs s path).1 =
        MemoryManager.update_access_order s path := by
      simp [MemoryManager.read_file_cached, hfind]
    rw [hres]
    exact hcur
  | none =>
    simp only [MemoryManager.read_file_cached, hfind]
    split_ifs with h1 h2 h3 h4
    · exact hcur
    · exact hcur
    · exact (ensure_current_le s _).trans hcur
    · rw [(add_to_cache_fields _ _ _).2.2.2.1]
      rcases ensure_post s (mbOfBytes (fs path).content.length) h with hfits | hempty
      · have hm := (ensure_frame s (mbOfBytes (fs path).content.length)).1
        rw [not_lt] at hfits
        linarith
      · have hz := ((CacheWF.ensure s (mbOfBytes (fs path).content.length) h).empty_order
          hempty).2
        rw [hz]
        linarith
    · exact (ensure_current_le s _).trans hcur

/-- C1 (amended): after `read_file_cached` or `clear_cache` on a well-formed
state, the tracked total equals the sum of the recorded entry sizes; and the
tracked total stays at or below the ceiling provided the ceiling is at least
the 10 MB cache-eligibility bound (when `max_memory_mb < 10`, a cache-eligible
file larger than the ceiling breaks the bound, see the counterexample). -/
theorem c1_memory_accounting_amended (fs : String → FileView) (mfs : Nat)
    (s : MemoryManager) (path : String) (h : CacheWF s)
    (hmax : 10 ≤ s.max_memory_mb) (hcur : s.current_memory_mb ≤ s.max_memory_mb) :
    ((MemoryManager.read_file_cached fs mfs s path).1.current_memory_mb =
        mbOfBytes ((((MemoryManager.read_file_cached fs mfs s path).1.cache_sizes).map
          Prod.snd).sum) ∧
      (MemoryManager.read_file_cached fs mfs s path).1.current_memory_mb ≤
        (MemoryManager.read_file_cached fs mfs s path).1.max_memory_mb) ∧
    ((MemoryManager.clear_cache s).current_memory_mb =
        mbOfBytes ((((MemoryManager.clear_cache s).cache_sizes).map Prod.snd).sum) ∧
      (MemoryManager.clear_cache s).current_memory_mb ≤
        (MemoryManager.clear_cache s).max_memory_mb) := by
  refine ⟨⟨(CacheWF.read fs mfs h path).sum_sizes, read_file_cached_bound fs mfs h hmax hcur path⟩,
    ⟨(CacheWF.clear s).sum_sizes, ?_⟩⟩
  show (0 : ℚ) ≤ s.max_memory_mb
  linarith

theorem c1_memory_accounting_amended_witness :
    CacheWF (MemoryManager.init 500) ∧
    (10 : ℚ) ≤ (MemoryManager.init 500).max_memory_mb ∧
    (MemoryManager.init 500).current_memory_mb ≤ (MemoryManager.init 500).max_memory_mb ∧
    (((MemoryManager.read_file_cached (fun _ => ⟨true, true, []⟩) 10000000
          (MemoryManager.init 500) "a").1.current_memory_mb =
        mbOfBytes ((((MemoryManager.read_file_cached (fun _ => ⟨true, true, []⟩) 10000000
          (MemoryManager.init 500) "a").1.cache_sizes).map Prod.snd).sum) ∧
      (MemoryManager.read_file_cached (fun _ => ⟨true, true, []⟩) 10000000
          (MemoryManager.init 500) "a").1.current_memory_mb ≤
        (MemoryManager.read_file_cached (fun _ => ⟨true, true, []⟩) 10000000
          (MemoryManager.init 500) "a").1.max_memory_mb) ∧
    ((MemoryManager.clear_cache (MemoryManager.init 500)).current_memory_mb =
        mbOfBytes ((((MemoryManager.clear_cache (MemoryManager.init 500)).cache_sizes).map
          Prod.snd).sum) ∧
      (MemoryManager.clear_cache (MemoryManager.init 500)).current_memory_mb ≤
        (MemoryManager.clear_cache (MemoryManager.init 500)).max_memory_mb)) :=
  ⟨CacheWF.init 500, by norm_num [MemoryManager.init], by norm_num [MemoryManager.init],
    c1_memory_accounting_amended (fun _ => ⟨true, true, []⟩) 10000000
      (MemoryManager.init 500) "a" (CacheWF.init 500)
      (by norm_num [MemoryManager.init]) (by norm_num [MemoryManager.init])⟩

theorem init_file_cache (m : ℚ) : (MemoryManager.init m).file_cache = [] := rfl

theorem init_cache_sizes (m : ℚ) : (MemoryManager.init m).cache_sizes = [] := rfl

theorem init_access_order (m : ℚ) : (MemoryManager.init m).access_order = [] := rfl

theorem init_current (m : ℚ) : (MemoryManager.init m).current_memory_mb = 0 := rfl

theorem init_max (m : ℚ) : (MemoryManager.init m).max_memory_mb = m := rfl

theorem init_peak (m : ℚ) : (MemoryManager.init m).peak_memory_mb = 0 := rfl

/-- C1 counterexample: with an 8 MB ceiling, reading a cache-eligible 9 MB file
(9437184 bytes, under the 10 MB threshold and under `max_file_size`) finds
nothing to evict, caches the file anyway, and leaves the tracked total at 9 MB,
above the 8 MB ceiling. -/
theorem c1_counterexample :
    ¬ ((MemoryManager.read_file_cached (fun _ => ⟨true, true, List.replicate 9437184 0⟩)
          10000000 (MemoryManager.init 8) "big").1.current_memory_mb ≤
        (MemoryManager.read_file_cached (fun _ => ⟨true, true, List.replicate 9437184 0⟩)
          10000000 (MemoryManager.init 8) "big").1.max_memory_mb) := by
  have hmb : mbOfBytes 9437184 = 9 := by
    rw [mbOfBytes]
    norm_num
  have hgt : (MemoryManager.init 8).current_memory_mb + mbOfBytes 9437184 >
      (MemoryManager.init 8).max_memory_mb := by
    rw [hmb, init_current, init_max]
    norm_num
  have hens : MemoryManager.ensure_memory_available (MemoryManager.init 8)
      (mbOfBytes 9437184) = MemoryManager.init 8 :=
    (ensure_eq_stop hgt rfl).trans rfl
  have hlt10 : mbOfBytes 9437184 < 10 := by
    rw [hmb]
    norm_num
  have hread : ∀ c : List Nat, c.length = 9437184 →
      (MemoryManager.read_file_cached (fun _ => ⟨true, true, c⟩) 10000000
        (MemoryManager.init 8) "big").1 =
      MemoryManager.add_to_cache (MemoryManager.init 8) "big" c := by
    intro c hc
    simp [MemoryManager.read_file_cached, init_file_cache, assocFind, hc, hens, hlt10]
  have hcur : ∀ c : List Nat, c.length = 9437184 →
      (MemoryManager.add_to_cache (MemoryManager.init 8) "big" c).current_memory_mb = 9 := by
    intro c hc
    rw [(add_to_cache_fields _ _ _).2.2.2.1, hc, hmb, init_current]
    norm_num
  have hlen : (List.replicate 9437184 (0 : Nat)).length = 9437184 := by
    rw [List.length_replicate]
  have hmax : (MemoryManager.add_to_cache (MemoryManager.init 8) "big"
      (List.replicate 9437184 0)).max_memory_mb = 8 :=
    (add_to_cache_fields _ _ _).2.2.2.2.trans rfl
  rw [hread _ hlen, hcur _ hlen, hmax]
  norm_num

/-- C10: `clear_cache` empties the cache, the size map and the access order,
and resets the tracked total to zero, but leaves `peak_memory_mb` alone, so
`get_memory_stats` afterwards still reports the pre-clear peak. -/
theorem c10_clear_cache_keeps_peak (s : MemoryManager) (available_mb : ℚ) :
    (MemoryManager.clear_cache s).file_cache = [] ∧
    (MemoryManager.clear_cache s).cache_sizes = [] ∧
    (MemoryManager.clear_cache s).access_order = [] ∧
    (MemoryManager.clear_cache s).current_memory_mb = 0 ∧
    (MemoryManager.clear_cache s).peak_memory_mb = s.peak_memory_mb ∧
    (MemoryManager.get_memory_stats (MemoryManager.clear_cache s) available_mb).peak_usage_mb =
      (MemoryManager.get_memory_stats s available_mb).peak_usage_mb := by
  simp [MemoryManager.clear_cache, MemoryManager.get_memory_stats]

/-- C5: eviction is strict LRU.  (1) On a well-formed state the entry removed
is the head of the access-order list (the least recently accessed), and the
tracked total drops by exactly the recorded size `n` taken from `cache_sizes`,
not a recomputation; (2) a cache hit in `read_file_cached` moves the hit key to
the most-recently-used end of the access order without touching the cache;
(3) inserting A (5 MB) then B (5 MB) into a fresh cache with an 8 MB ceiling
evicts A and leaves only B, with a tracked total of 5 MB. -/
theorem c5_lru_eviction :
    (∀ (s : MemoryManager) (oldest : String) (rest : List String) (n : Nat) (c : List Nat),
      CacheWF s → s.access_order = oldest :: rest →
      assocFind s.file_cache oldest = some c →
      assocFind s.cache_sizes oldest = some n →
      MemoryManager.evict_oldest_cache s =
        ({ s with
            access_order := rest
            file_cache := assocErase s.file_cache oldest
            cache_sizes := assocErase s.cache_sizes oldest
            current_memory_mb := s.current_memory_mb - mbOfBytes n }, true)) ∧
    (∀ (fs : String → FileView) (mfs : Nat) (s : MemoryManager) (path : String)
      (c : List Nat), CacheWF s → assocFind s.file_cache path = some c →
      (MemoryManager.read_file_cached fs mfs s path).1.access_order =
        s.access_order.erase path ++ [path] ∧
      (MemoryManager.read_file_cached fs mfs s path).1.file_cache = s.file_cache) ∧
    ((MemoryManager.read_file_cached (fun _ => ⟨true, true, List.replicate 5242880 0⟩)
        10000000
        (MemoryManager.read_file_cached (fun _ => ⟨true, true, List.replicate 5242880 0⟩)
          10000000 (MemoryManager.init 8) "A").1 "B").1.file_cache =
          [("B", List.replicate 5242880 0)] ∧
      (MemoryManager.read_file_cached (fun _ => ⟨true, true, List.replicate 5242880 0⟩)
        10000000
        (MemoryManager.read_file_cached (fun _ => ⟨true, true, List.replicate 5242880 0⟩)
          10000000 (MemoryManager.init 8) "A").1 "B").1.current_memory_mb = 5 ∧
      (MemoryManager.read_file_cached (fun _ => ⟨true, true, List.replicate 5242880 0⟩)
        10000000
        (MemoryManager.read_file_cached (fun _ => ⟨true, true, List.replicate 5242880 0⟩)
          10000000 (MemoryManager.init 8) "A").1 "B").1.access_order = ["B"]) := by
  have h5 : mbOfBytes 5242880 = 5 := by
    rw [mbOfBytes]
    norm_num
  refine ⟨?_, ?_, ?_⟩
  · intro s oldest rest n c hwf hao hc hn
    have hlen : n = c.length := by
      rw [hwf.sizes_eq, assocFind_map_snd, hc] at hn
      simpa using hn.symm
    rw [evict_oldest_cache_spec hwf hao hc, hlen]
  · intro fs mfs s path c hwf hc
    have hres : (MemoryManager.read_file_cached fs mfs s path).1 =
        MemoryManager.update_access_order s path := by
      simp [MemoryManager.read_file_cached, hc]
    have hmem : path ∈ s.access_order :=
      (hwf.order_iff path).2 (by rw [hc]; rfl)
    rw [hres]
    exact ⟨by simp [MemoryManager.update_access_order, hmem], rfl⟩
  · -- the concrete scenario, proved for any 5 MB content then instantiated
    have main : ∀ c : List Nat, c.length = 5242880 →
        (MemoryManager.read_file_cached (fun _ => ⟨true, true, c⟩) 10000000
          (MemoryManager.read_file_cached (fun _ => ⟨true, true, c⟩) 10000000
            (MemoryManager.init 8) "A").1 "B").1 =
        ⟨8, [("B", c)], [("B", 5242880)], ["B"], 5, 5⟩ := by
      intro c hc
      have hensA : MemoryManager.ensure_memory_available (MemoryManager.init 8)
          (mbOfBytes 5242880) = MemoryManager.init 8 := by
        apply ensure_eq_id
        rw [init_current, init_max, h5]
        norm_num
      have hlt10 : mbOfBytes 5242880 < 10 := by
        rw [h5]
        norm_num
      have hreadA : (MemoryManager.read_file_cached (fun _ => ⟨true, true, c⟩) 10000000
          (MemoryManager.init 8) "A").1 =
          MemoryManager.add_to_cache (MemoryManager.init 8) "A" c := by
        simp [MemoryManager.read_file_cached, init_file_cache, assocFind, hc, hensA, hlt10]
      have hsA : MemoryManager.add_to_cache (MemoryManager.init 8) "A" c =
          ⟨8, [("A", c)], [("A", 5242880)], ["A"], 5, 5⟩ := by
        simp only [MemoryManager.add_to_cache, MemoryManager.update_access_order,
          MemoryManager.init, assocSet, hc, h5]
        norm_num
      have hevB : MemoryManager.evict_oldest_cache ⟨8, [("A", c)], [("A", 5242880)], ["A"], 5, 5⟩ =
          (⟨8, [], [], [], 0, 5⟩, true) := by
        simp [MemoryManager.evict_oldest_cache, assocFind, assocErase, h5]
      have hensB : MemoryManager.ensure_memory_available
          ⟨8, [("A", c)], [("A", 5242880)], ["A"], 5, 5⟩ (mbOfBytes 5242880) =
          ⟨8, [], [], [], 0, 5⟩ := by
        rw [ensure_eq_step (by rw [h5]; norm_num) (by rw [hevB]), hevB]
        apply ensure_eq_id
        rw [h5]
        norm_num
      have hreadB : (MemoryManager.read_file_cached (fun _ => ⟨true, true, c⟩) 10000000
          ⟨8, [("A", c)], [("A", 5242880)], ["A"], 5, 5⟩ "B").1 =
          MemoryManager.add_to_cache ⟨8, [], [], [], 0, 5⟩ "B" c := by
        simp [MemoryManager.read_file_cached, assocFind, hc, hensB, hlt10]
      have hsB : MemoryManager.add_to_cache ⟨8, [], [], [], 0, 5⟩ "B" c =
          ⟨8, [("B", c)], [("B", 5242880)], ["B"], 5, 5⟩ := by
        simp only [MemoryManager.add_to_cache, MemoryManager.update_access_order,
          assocSet, hc, h5]
        norm_num
      rw [hreadA, hsA, hreadB, hsB]
    have hlen : (List.replicate 5242880 (0 : Nat)).length = 5242880 := by
      rw [List.length_replicate]
    rw [main _ hlen]
    exact ⟨rfl, rfl, rfl⟩

theorem c5_lru_eviction_witness :
    CacheWF (MemoryManager.add_to_cache (MemoryManager.init 8) "A" [0, 0, 0]) ∧
    (MemoryManager.add_to_cache (MemoryManager.init 8) "A" [0, 0, 0]).access_order = ["A"] ∧
    assocFind (MemoryManager.add_to_cache (MemoryManager.init 8) "A" [0, 0, 0]).file_cache
      "A" = some [0, 0, 0] ∧
    assocFind (MemoryManager.add_to_cache (MemoryManager.init 8) "A" [0, 0, 0]).cache_sizes
      "A" = some 3 ∧
    MemoryManager.evict_oldest_cache
        (MemoryManager.add_to_cache (MemoryManager.init 8) "A" [0, 0, 0]) =
      ({ MemoryManager.add_to_cache (MemoryManager.init 8) "A" [0, 0, 0] with
          access_order := []
          file_cache := assocErase
            (MemoryManager.add_to_cache (MemoryManager.init 8) "A" [0, 0, 0]).file_cache "A"
          cache_sizes := assocErase
            (MemoryManager.add_to_cache (MemoryManager.init 8) "A" [0, 0, 0]).cache_sizes "A"
          current_memory_mb :=
            (MemoryManager.add_to_cache (MemoryManager.init 8) "A"
              [0, 0, 0]).current_memory_mb - mbOfBytes 3 }, true) ∧
    (MemoryManager.read_file_cached (fun _ => ⟨true, true, []⟩) 10
        (MemoryManager.add_to_cache (MemoryManager.init 8) "A" [0, 0, 0]) "A").1.access_order =
      (MemoryManager.add_to_cache (MemoryManager.init 8) "A"
        [0, 0, 0]).access_order.erase "A" ++ ["A"] := by
  have hwf : CacheWF (MemoryManager.add_to_cache (MemoryManager.init 8) "A" [0, 0, 0]) :=
    CacheWF.add (CacheWF.init 8) rfl
  have hsA0 : MemoryManager.add_to_cache (MemoryManager.init 8) "A" [0, 0, 0] =
      ⟨8, [("A", [0, 0, 0])], [("A", 3)], ["A"], mbOfBytes 3, mbOfBytes 3⟩ := by
    have hpos : (0 : ℚ) < mbOfBytes 3 := by
      rw [mbOfBytes]
      norm_num
    simp [MemoryManager.add_to_cache, MemoryManager.update_access_order, MemoryManager.init,
      assocSet, hpos]
  have hord : (MemoryManager.add_to_cache (MemoryManager.init 8) "A"
      [0, 0, 0]).access_order = ["A"] := by rw [hsA0]
  have hfc : assocFind (MemoryManager.add_to_cache (MemoryManager.init 8) "A"
      [0, 0, 0]).file_cache "A" = some [0, 0, 0] := by
    rw [hsA0]
    simp [assocFind]
  have hcs : assocFind (MemoryManager.add_to_cache (MemoryManager.init 8) "A"
      [0, 0, 0]).cache_sizes "A" = some 3 := by
    rw [hsA0]
    simp [assocFind]
  refine ⟨hwf, hord, hfc, hcs, ?_, ?_⟩
  · exact c5_lru_eviction.1 _ "A" [] 3 [0, 0, 0] hwf hord hfc hcs
  · exact (c5_lru_eviction.2.1 (fun _ => ⟨true, true, []⟩) 10 _ "A" [0, 0, 0] hwf hfc).1

theorem assocFind_assocErase_some {β : Type} {l : List (String × β)} {j k : String}
    {c : β} (hnd : (l.map Prod.fst).Nodup) (h : assocFind (assocErase l j) k = some c) :
    assocFind l k = some c := by
  by_cases hkj : k = j
  · subst hkj
    rw [assocFind_assocErase_self _ _ hnd] at h
    exact absurd h (by simp)
  · rwa [assocFind_assocErase_of_ne _ _ _ hkj] at h

theorem evict_find_some {s : MemoryManager} (hwf : CacheWF s) {k : String} {c : List Nat}
    (h : assocFind (MemoryManager.evict_oldest_cache s).1.file_cache k = some c) :
    assocFind s.file_cache k = some c := by
  cases hao : s.access_order with
  | nil =>
    have hid : (MemoryManager.evict_oldest_cache s).1 = s := by
      simp [MemoryManager.evict_oldest_cache, hao]
    rwa [hid] at h
  | cons oldest rest =>
    by_cases hs : (assocFind s.file_cache oldest).isSome
    · obtain ⟨c0, hc0⟩ := Option.isSome_iff_exists.1 hs
      rw [evict_oldest_cache_spec hwf hao hc0] at h
      exact assocFind_assocErase_some hwf.nodup_keys h
    · have hid : (MemoryManager.evict_oldest_cache s).1.file_cache = s.file_cache := by
        simp [MemoryManager.evict_oldest_cache, hao, hs]
      rwa [hid] at h

theorem ensure_find_some (s : MemoryManager) (r : ℚ) : CacheWF s →
    ∀ (k : String) (c : List Nat),
      assocFind (MemoryManager.ensure_memory_available s r).file_cache k = some c →
      assocFind s.file_cache k = some c := by
  induction s, r using MemoryManager.ensure_memory_available.induct with
  | case1 s r hgt p hp ih =>
    intro hwf k c hh
    rw [ensure_eq_step hgt hp] at hh
    exact evict_find_some hwf (ih hwf.evict k c hh)
  | case2 s r hgt p hp =>
    intro hwf k c hh
    rw [ensure_eq_stop hgt (by simpa using hp)] at hh
    exact evict_find_some hwf hh
  | case3 s r hle =>
    intro hwf k c hh
    rwa [ensure_eq_id hle] at hh

/-- C8 (amended): `read_file_cached` never raises.  On a cache miss: a failing
`stat` and an oversized file both return `none` with the state exactly
unchanged (the oversized check precedes any read or cache mutation); an
unreadable file returns `none` and inserts nothing into the cache — every
entry still cached afterwards was already cached with the same content —
although entries may have been evicted for headroom before the failure. -/
theorem c8_failure_no_content_amended (fs : String → FileView) (mfs : Nat)
    (s : MemoryManager) (path : String) (hwf : CacheWF s)
    (hmiss : assocFind s.file_cache path = none) :
    ((fs path).statOk = false →
      MemoryManager.read_file_cached fs mfs s path = (s, none)) ∧
    ((fs path).content.length > mfs →
      MemoryManager.read_file_cached fs mfs s path = (s, none)) ∧
    ((fs path).readable = false →
      (MemoryManager.read_file_cached fs mfs s path).2 = none ∧
      ∀ (k : String) (c : List Nat),
        assocFind (MemoryManager.read_file_cached fs mfs s path).1.file_cache k = some c →
        assocFind s.file_cache k = some c) := by
  refine ⟨?_, ?_, ?_⟩
  · intro hstat
    simp [MemoryManager.read_file_cached, hmiss, hstat]
  · intro hsize
    by_cases hstat : (fs path).statOk = false
    · simp [MemoryManager.read_file_cached, hmiss, hstat]
    · simp [MemoryManager.read_file_cached, hmiss, hstat, hsize]
  · intro hunread
    constructor
    · simp only [MemoryManager.read_file_cached, hmiss]
      split_ifs <;> rfl
    · intro k c
      have hres : (MemoryManager.read_file_cached fs mfs s path).1 = s ∨
          (MemoryManager.read_file_cached fs mfs s path).1 =
            MemoryManager.ensure_memory_available s (mbOfBytes (fs path).content.length) := by
        by_cases h1 : (fs path).statOk = false
        · left
          simp [MemoryManager.read_file_cached, hmiss, h1]
        · by_cases h2 : (fs path).content.length > mfs
          · left
            simp [MemoryManager.read_file_cached, hmiss, h1, h2]
          · right
            simp [MemoryManager.read_file_cached, hmiss, h1, h2, hunread]
      rcases hres with hres | hres
      · rw [hres]
        exact fun hh => hh
      · rw [hres]
        exact ensure_find_some s _ hwf k c

theorem c8_failure_no_content_amended_witness :
    CacheWF (MemoryManager.init 500) ∧
    assocFind (MemoryManager.init 500).file_cache "a" = none ∧
    ((fun _ => (⟨false, false, []⟩ : FileView)) "a").statOk = false ∧
    MemoryManager.read_file_cached (fun _ => ⟨false, false, []⟩) 5
      (MemoryManager.init 500) "a" = (MemoryManager.init 500, none) :=
  ⟨CacheWF.init 500, rfl, rfl,
    (c8_failure_no_content_amended (fun _ => ⟨false, false, []⟩) 5
      (MemoryManager.init 500) "a" (CacheWF.init 500) rfl).1 rfl⟩

/-- C8 counterexample: a permission failure does not leave the cache contents
unchanged.  With A (5 MB) cached and an 8 MB ceiling, requesting an unreadable
5 MB file evicts A to make headroom before the `open` fails: the call returns
`none` but the cache is now empty. -/
theorem c8_counterexample :
    (MemoryManager.read_file_cached (fun _ => ⟨true, false, List.replicate 5242880 0⟩)
        10000000
        ⟨8, [("A", List.replicate 5242880 0)], [("A", 5242880)], ["A"], 5, 5⟩
        "locked").2 = none ∧
    (MemoryManager.read_file_cached (fun _ => ⟨true, false, List.replicate 5242880 0⟩)
        10000000
        ⟨8, [("A", List.replicate 5242880 0)], [("A", 5242880)], ["A"], 5, 5⟩
        "locked").1.file_cache ≠
      (⟨8, [("A", List.replicate 5242880 0)], [("A", 5242880)], ["A"], 5,
        5⟩ : MemoryManager).file_cache := by
  have h5 : mbOfBytes 5242880 = 5 := by
    rw [mbOfBytes]
    norm_num
  have main : ∀ c : List Nat, c.length = 5242880 →
      MemoryManager.read_file_cached (fun _ => ⟨true, false, c⟩) 10000000
        ⟨8, [("A", c)], [("A", 5242880)], ["A"], 5, 5⟩ "locked" =
      (⟨8, [], [], [], 0, 5⟩, none) := by
    intro c hc
    have hevB : MemoryManager.evict_oldest_cache ⟨8, [("A", c)], [("A", 5242880)], ["A"], 5, 5⟩ =
        (⟨8, [], [], [], 0, 5⟩, true) := by
      simp [MemoryManager.evict_oldest_cache, assocFind, assocErase, h5]
    have hens : MemoryManager.ensure_memory_available
        ⟨8, [("A", c)], [("A", 5242880)], ["A"], 5, 5⟩ (mbOfBytes 5242880) =
        ⟨8, [], [], [], 0, 5⟩ := by
      rw [ensure_eq_step (by rw [h5]; norm_num) (by rw [hevB]), hevB]
      apply ensure_eq_id
      rw [h5]
      norm_num
    simp [MemoryManager.read_file_cached, assocFind, hc, hens]
  have hlen : (List.replicate 5242880 (0 : Nat)).length = 5242880 := by
    rw [List.length_replicate]
  rw [main _ hlen]
  exact ⟨rfl, fun hcontra => List.noConfusion hcontra⟩

/-!
### `AsyncBatchProcessor` (async_batch.py)

The per-item processor is a function `T → Nat → Except E R`: applying it to an
item and a 0-indexed attempt number gives either a result (`ok`) or the raised
exception (`error`), so a processor may fail on some attempts and succeed on
later ones.  Wall-clock durations are not modelled; every `duration` field is
0.  The `self.stats` bookkeeping (`_update_stats`) only feeds `get_stats` and
is observed by no claim, so it is not part of the state here.  The semaphore
is irrelevant to the values computed (it only schedules) and is modelled
separately as a transition system for the concurrency claim.
-/

/-- `BatchResult` (async_batch.py, lines 18-25). -/
structure BatchResult (E R : Type) where
  success_count : Nat
  error_count : Nat
  results : List R
  errors : List E
  duration : ℚ
deriving Repr, DecidableEq

/-- The retry loop of `_process_with_semaphore` (lines 93-100), written as
structural recursion on the number of remaining attempts: `remaining = 0`
means the current attempt is the last one (`attempt == max_retries`), where a
failure is re-raised.  Besides the outcome it returns the number of processor
invocations made and the list of back-off delays slept, in order: after a
failed attempt `a` the code sleeps `0.1 * 2 ** a` seconds. -/
def runAttempts {E R : Type} (p : Nat → Except E R) (attempt : Nat) :
    Nat → Except E R × Nat × List ℚ
  | 0 => (p attempt, 1, [])
  | remaining + 1 =>
    match p attempt with
    | .ok r => (.ok r, 1, [])
    | .error _ =>
      let rest := runAttempts p (attempt + 1) remaining
      (rest.1, rest.2.1 + 1, ((1 : ℚ) / 10 * 2 ^ attempt) :: rest.2.2)

/-- `_process_with_semaphore` (lines 89-100): attempts `0 .. max_retries`;
the exception of the final attempt is re-raised (here: returned as `error`). -/
def process_with_semaphore {T E R : Type} (max_retries : Nat)
    (processor : T → Nat → Except E R) (item : T) : Except E R × Nat × List ℚ :=
  runAttempts (processor item) 0 max_retries

/-- `items[i:i+b]` chunking of `process_batch`'s loop (line 64).  In Python a
zero step raises `ValueError`; that case is modelled as `[]` and excluded by
the `0 < b` hypotheses of the theorems below. -/
def chunksOf {α : Type} (b : Nat) : List α → List (List α)
  | [] => []
  | x :: xs =>
    if h : b = 0 then []
    else (x :: xs).take b :: chunksOf b ((x :: xs).drop b)
termination_by l => l.length
decreasing_by
  simp only [List.length_drop, List.length_cons]
  omega

/-- `batch_size = batch_size or self.max_concurrent` (line 56): `None` and the
falsy `0` both fall back to `max_concurrent`. -/
def effectiveBatchSize (max_concurrent : Nat) (batch_size : Option Nat) : Nat :=
  match batch_size with
  | none => max_concurrent
  | some b => if b = 0 then max_concurrent else b

/-- `_process_single_batch` (lines 83-87): `asyncio.gather(*tasks,
return_exceptions=True)` returns one entry per item, in order, with raised
exceptions as values. -/
def process_single_batch {T E R : Type} (max_retries : Nat)
    (processor : T → Nat → Except E R) (batch : List T) : List (Except E R) :=
  batch.map (fun item => (process_with_semaphore max_retries processor item).1)

/-- The result-collection loop of `process_batch` (lines 68-74): exceptions go
to `errors`, everything else to `results`, preserving encounter order. -/
def collectResults {E R : Type} : List (Except E R) → Nat × Nat × List R × List E
  | [] => (0, 0, [], [])
  | .ok v :: t =>
    let rest := collectResults t
    (rest.1 + 1, rest.2.1, v :: rest.2.2.1, rest.2.2.2)
  | .error e :: t =>
    let rest := collectResults t
    (rest.1, rest.2.1 + 1, rest.2.2.1, e :: rest.2.2.2)

/-- `process_batch` (lines 48-81). -/
def process_batch {T E R : Type} (max_concurrent max_retries : Nat) (items : List T)
    (processor : T → Nat → Except E R) (batch_size : Option Nat) : BatchResult E R :=
  match items with
  | [] => ⟨0, 0, [], [], 0⟩
  | _ =>
    let b := effectiveBatchSize max_concurrent batch_size
    let flat := ((chunksOf b items).map (process_single_batch max_retries processor)).flatten
    let c := collectResults flat
    ⟨c.1, c.2.1, c.2.2.1, c.2.2.2, 0⟩

theorem chunksOf_flatten {α : Type} (b : Nat) (hb : 0 < b) (l : List α) :
    (chunksOf b l).flatten = l := by
  induction l using chunksOf.induct b with
  | case1 => simp [chunksOf]
  | case2 x xs hz => exact absurd hz (by omega)
  | case3 x xs hz ih =>
    rw [chunksOf, dif_neg hz]
    simp only [List.flatten_cons, ih]
    exact List.take_append_drop b (x :: xs)

theorem collectResults_spec {E R : Type} (l : List (Except E R)) :
    (collectResults l).2.2.1 = l.filterMap (fun r => match r with
      | .ok v => some v | .error _ => none) ∧
    (collectResults l).2.2.2 = l.filterMap (fun r => match r with
      | .ok _ => none | .error e => some e) ∧
    (collectResults l).1 = (collectResults l).2.2.1.length ∧
    (collectResults l).2.1 = (collectResults l).2.2.2.length := by
  induction l with
  | nil => simp [collectResults]
  | cons hd t ih =>
    cases hd with
    | ok v =>
      simp only [collectResults, List.filterMap_cons]
      exact ⟨by rw [ih.1], by rw [ih.2.1], by simp [ih.1, ih.2.2.1], by simp [ih.2.1, ih.2.2.2]⟩
    | error e =>
      simp only [collectResults, List.filterMap_cons]
      exact ⟨by rw [ih.1], by rw [ih.2.1], by simp [ih.1, ih.2.2.1], by simp [ih.2.1, ih.2.2.2]⟩

theorem flatten_map_process {T E R : Type} (max_retries : Nat)
    (processor : T → Nat → Except E R) (L : List (List T)) :
    ((L.map (process_single_batch max_retries processor)).flatten) =
      L.flatten.map (fun item => (process_with_semaphore max_retries processor item).1) := by
  induction L with
  | nil => simp
  | cons hd t ih => simp [process_single_batch, ih]

theorem except_partition_length {E R : Type} (l : List (Except E R)) :
    (l.filterMap (fun r => match r with | .ok v => some v | .error _ => none)).length +
      (l.filterMap (fun r => match r with | .ok _ => none | .error e => some e)).length =
      l.length := by
  induction l with
  | nil => simp
  | cons hd t ih =>
    cases hd <;> simp [List.filterMap_cons] <;> omega

/-- C3: for every item list and every (possibly failing) processor,
`process_batch` returns counts satisfying `success_count + error_count =
number of items`, `success_count = |results|`, `error_count = |errors|`; the
results list holds exactly the successful outcomes and the errors list exactly
the captured exceptions of the failing items, in item order — failures are
values, never raised to the caller. -/
theorem c3_process_batch_accounting {T E R : Type} (max_concurrent max_retries : Nat)
    (items : List T) (processor : T → Nat → Except E R) (batch_size : Option Nat)
    (hb : 0 < effectiveBatchSize max_concurrent batch_size) :
    (process_batch max_concurrent max_retries items processor batch_size).success_count +
      (process_batch max_concurrent max_retries items processor batch_size).error_count =
      items.length ∧
    (process_batch max_concurrent max_retries items processor batch_size).success_count =
      (process_batch max_concurrent max_retries items processor batch_size).results.length ∧
    (process_batch max_concurrent max_retries items processor batch_size).error_count =
      (process_batch max_concurrent max_retries items processor batch_size).errors.length ∧
    (process_batch max_concurrent max_retries items processor batch_size).results =
      items.filterMap (fun i =>
        match (process_with_semaphore max_retries processor i).1 with
        | .ok v => some v | .error _ => none) ∧
    (process_batch max_concurrent max_retries items processor batch_size).errors =
      items.filterMap (fun i =>
        match (process_with_semaphore max_retries processor i).1 with
        | .ok _ => none | .error e => some e) := by
  cases items with
  | nil => simp [process_batch]
  | cons hd t =>
    have hflat : ((chunksOf (effectiveBatchSize max_concurrent batch_size) (hd :: t)).map
        (process_single_batch max_retries processor)).flatten =
        (hd :: t).map (fun item => (process_with_semaphore max_retries processor item).1) := by
      rw [flatten_map_process, chunksOf_flatten _ hb]
    obtain ⟨hres, herr, hsc, hec⟩ := collectResults_spec
      (((chunksOf (effectiveBatchSize max_concurrent batch_size) (hd :: t)).map
        (process_single_batch max_retries processor)).flatten)
    rw [hflat] at hres herr hsc hec
    simp only [process_batch, hflat]
    refine ⟨?_, hsc, hec, ?_, ?_⟩
    · rw [hsc, hec, hres, herr]
      rw [except_partition_length ((hd :: t).map
        (fun item => (process_with_semaphore max_retries processor item).1))]
      exact List.length_map _ _
    · rw [hres, List.filterMap_map]
      rfl
    · rw [herr, List.filterMap_map]
      rfl

theorem c3_process_batch_accounting_witness :
    0 < effectiveBatchSize 2 none ∧
    ((process_batch 2 0 [1, 2, 3]
        (fun i _ => if i = 2 then Except.error "boom" else Except.ok i) none).success_count +
      (process_batch 2 0 [1, 2, 3]
        (fun i _ => if i = 2 then Except.error "boom" else Except.ok i) none).error_count =
      ([1, 2, 3] : List Nat).length ∧
    (process_batch 2 0 [1, 2, 3]
        (fun i _ => if i = 2 then Except.error "boom" else Except.ok i) none).success_count =
      (process_batch 2 0 [1, 2, 3]
        (fun i _ => if i = 2 then Except.error "boom" else Except.ok i) none).results.length ∧
    (process_batch 2 0 [1, 2, 3]
        (fun i _ => if i = 2 then Except.error "boom" else Except.ok i) none).error_count =
      (process_batch 2 0 [1, 2, 3]
        (fun i _ => if i = 2 then Except.error "boom" else Except.ok i) none).errors.length ∧
    (process_batch 2 0 [1, 2, 3]
        (fun i _ => if i = 2 then Except.error "boom" else Except.ok i) none).results =
      ([1, 2, 3] : List Nat).filterMap (fun i =>
        match (process_with_semaphore 0
            (fun i _ => if i = 2 then Except.error "boom" else Except.ok i) i).1 with
        | .ok v => some v | .error _ => none) ∧
    (process_batch 2 0 [1, 2, 3]
        (fun i _ => if i = 2 then Except.error "boom" else Except.ok i) none).errors =
      ([1, 2, 3] : List Nat).filterMap (fun i =>
        match (process_with_semaphore 0
            (fun i _ => if i = 2 then Except.error "boom" else Except.ok i) i).1 with
        | .ok _ => none | .error e => some e)) :=
  ⟨by decide,
    c3_process_batch_accounting 2 0 [1, 2, 3]
      (fun i _ => if i = 2 then Except.error "boom" else Except.ok i) none (by decide)⟩

theorem runAttempts_success {E R : Type} (p : Nat → Except E R) :
    ∀ (j start remaining : Nat) (v : R), p (start + j) = .ok v → j ≤ remaining →
    (∀ a < j, ∃ e, p (start + a) = .error e) →
    runAttempts p start remaining =
      (.ok v, j + 1, (List.range j).map (fun a => (1 : ℚ) / 10 * 2 ^ (start + a))) := by
  intro j
  induction j with
  | zero =>
    intro start remaining v hj _ _
    rw [Nat.add_zero] at hj
    cases remaining with
    | zero => simp [runAttempts, hj]
    | succ rem => simp [runAttempts, hj]
  | succ j ih =>
    intro start remaining v hj hle hfail
    obtain ⟨e, he⟩ := hfail 0 (Nat.succ_pos j)
    rw [Nat.add_zero] at he
    cases remaining with
    | zero => exact absurd hle (by omega)
    | succ rem =>
      have hj2 : p (start + 1 + j) = Except.ok v := by
        rw [show start + 1 + j = start + (j + 1) from by omega]
        exact hj
      have hfail2 : ∀ a < j, ∃ e0, p (start + 1 + a) = Except.error e0 := by
        intro a ha
        obtain ⟨e0, he0⟩ := hfail (a + 1) (by omega)
        refine ⟨e0, ?_⟩
        rw [show start + 1 + a = start + (a + 1) from by omega]
        exact he0
      have hstep := ih (start + 1) rem v hj2 (by omega) hfail2
      simp only [runAttempts, he, hstep, Prod.mk.injEq]
      refine ⟨by trivial, by trivial, ?_⟩
      rw [List.range_succ_eq_map]
      simp only [List.map_cons, List.map_map, Nat.add_zero, List.cons.injEq]
      refine ⟨by trivial, ?_⟩
      apply List.map_congr_left
      intro a _
      simp only [Function.comp_apply]
      congr 2
      omega

theorem runAttempts_all_fail {E R : Type} (p : Nat → Except E R) :
    ∀ (remaining start : Nat) (e : E), p (start + remaining) = .error e →
    (∀ a < remaining, ∃ e0, p (start + a) = .error e0) →
    runAttempts p start remaining =
      (.error e, remaining + 1,
        (List.range remaining).map (fun a => (1 : ℚ) / 10 * 2 ^ (start + a))) := by
  intro remaining
  induction remaining with
  | zero =>
    intro start e hlast _
    rw [Nat.add_zero] at hlast
    simp [runAttempts, hlast]
  | succ rem ih =>
    intro start e hlast hfail
    obtain ⟨e0, he0⟩ := hfail 0 (Nat.succ_pos rem)
    rw [Nat.add_zero] at he0
    have hlast2 : p (start + 1 + rem) = Except.error e := by
      rw [show start + 1 + rem = start + (rem + 1) from by omega]
      exact hlast
    have hfail2 : ∀ a < rem, ∃ e1, p (start + 1 + a) = Except.error e1 := by
      intro a ha
      obtain ⟨e1, he1⟩ := hfail (a + 1) (by omega)
      refine ⟨e1, ?_⟩
      rw [show start + 1 + a = start + (a + 1) from by omega]
      exact he1
    have hstep := ih (start + 1) e hlast2 hfail2
    simp only [runAttempts, he0, hstep, Prod.mk.injEq]
    refine ⟨by trivial, by trivial, ?_⟩
    rw [List.range_succ_eq_map]
    simp only [List.map_cons, List.map_map, Nat.add_zero, List.cons.injEq]
    refine ⟨by trivial, ?_⟩
    apply List.map_congr_left
    intro a _
    simp only [Function.comp_apply]
    congr 2
    omega

/-- C4: retry semantics of `_process_with_semaphore`.  (1) An item whose first
success is at attempt `j ≤ max_retries` yields that success after exactly
`j + 1` invocations, with the back-off delays `0.1 * 2^k` for `k < j` slept
before the retries, in order; (2) an item failing all `max_retries + 1`
attempts yields the exception of the last attempt as its recorded error;
(3) a processor failing exactly twice then succeeding, with `max_retries = 3`,
gives exactly 3 invocations, delays `0.1 * 2^0` and `0.1 * 2^1`, and a
`process_batch` result with `success_count = 1`. -/
theorem c4_retry_backoff :
    (∀ {T E R : Type} (max_retries : Nat) (processor : T → Nat → Except E R)
      (item : T) (j : Nat) (v : R), processor item j = .ok v → j ≤ max_retries →
      (∀ a < j, ∃ e, processor item a = .error e) →
      process_with_semaphore max_retries processor item =
        (.ok v, j + 1, (List.range j).map (fun a => (1 : ℚ) / 10 * 2 ^ a))) ∧
    (∀ {T E R : Type} (max_retries : Nat) (processor : T → Nat → Except E R)
      (item : T) (e : E), processor item max_retries = .error e →
      (∀ a < max_retries, ∃ e0, processor item a = .error e0) →
      process_with_semaphore max_retries processor item =
        (.error e, max_retries + 1,
          (List.range max_retries).map (fun a => (1 : ℚ) / 10 * 2 ^ a))) ∧
    (process_with_semaphore 3
        (fun (_ : Unit) a => if a < 2 then Except.error "boom" else Except.ok (42 : Nat))
        () = (.ok 42, 3, [(1 : ℚ) / 10 * 2 ^ 0, (1 : ℚ) / 10 * 2 ^ 1]) ∧
      (process_batch 10 3 [()]
        (fun (_ : Unit) a => if a < 2 then Except.error "boom" else Except.ok (42 : Nat))
        none).success_count = 1) := by
  refine ⟨?_, ?_, ?_, ?_⟩
  · intro T E R max_retries processor item j v hj hle hfail
    have h := runAttempts_success (processor item) j 0 max_retries v
      (by rw [Nat.zero_add]; exact hj) hle
      (fun a ha => by rw [Nat.zero_add]; exact hfail a ha)
    rw [process_with_semaphore, h]
    simp
  · intro T E R max_retries processor item e hlast hfail
    have h := runAttempts_all_fail (processor item) max_retries 0 e
      (by rw [Nat.zero_add]; exact hlast)
      (fun a ha => by rw [Nat.zero_add]; exact hfail a ha)
    rw [process_with_semaphore, h]
    simp
  · have h3 := runAttempts_success
      (fun a => if a < 2 then Except.error "boom" else Except.ok (42 : Nat)) 2 0 3 42
      rfl (by omega) (fun a ha => ⟨"boom", by simp only [Nat.zero_add]; exact if_pos ha⟩)
    simp only [process_with_semaphore]
    rw [h3]
    norm_num [List.range_succ]
  · have h3 := runAttempts_success
      (fun a => if a < 2 then Except.error "boom" else Except.ok (42 : Nat)) 2 0 3 42
      rfl (by omega) (fun a ha => ⟨"boom", by simp only [Nat.zero_add]; exact if_pos ha⟩)
    have hpws : (process_with_semaphore 3
        (fun (_ : Unit) a => if a < 2 then Except.error "boom" else Except.ok (42 : Nat))
        ()).1 = Except.ok 42 := by
      simp only [process_with_semaphore]
      rw [h3]
    have hch : chunksOf 10 [()] = [[()]] := by
      simp [chunksOf]
    simp [process_batch, effectiveBatchSize, hch, process_single_batch, hpws,
      collectResults]

theorem c4_retry_backoff_witness :
    ((fun (_ : Unit) a => if a < 2 then Except.error "boom"
        else Except.ok (42 : Nat)) () 2 = Except.ok 42) ∧
    (2 ≤ 3) ∧
    (∀ a < 2, ∃ e, (fun (_ : Unit) a => if a < 2 then Except.error "boom"
        else Except.ok (42 : Nat)) () a = Except.error e) ∧
    process_with_semaphore 3
        (fun (_ : Unit) a => if a < 2 then Except.error "boom" else Except.ok (42 : Nat)) () =
      (.ok 42, 2 + 1, (List.range 2).map (fun a => (1 : ℚ) / 10 * 2 ^ a)) :=
  ⟨rfl, by omega, fun a ha => ⟨"boom", if_pos ha⟩,
    c4_retry_backoff.1 3
      (fun (_ : Unit) a => if a < 2 then Except.error "boom" else Except.ok (42 : Nat))
      () 2 42 rfl (by omega) (fun a ha => ⟨"boom", if_pos ha⟩)⟩

/-- Python `int()`: truncation toward zero. -/
def pyInt (q : ℚ) : ℤ := if 0 ≤ q then ⌊q⌋ else -⌊-q⌋

/-- The batch size `adaptive_batch_size` computes for the remainder
(async_batch.py, lines 258-264): `sample_duration` is the measured wall-clock
time of the sample (a parameter here), floored to 0.001 when it is 0;
`optimal = min(max(1, int(throughput * target)), len(items), 2 * max_concurrent)`. -/
def optimal_batch_size_of (max_concurrent items_len initial_batch_size : Nat)
    (target_duration sample_duration : ℚ) : ℤ :=
  let sd := if sample_duration = 0 then 1 / 1000 else sample_duration
  let throughput := (initial_batch_size : ℚ) / sd
  min (min (max 1 (pyInt (throughput * target_duration))) (items_len : ℤ))
    ((max_concurrent : ℤ) * 2)

/-- The batch-size formula as the spec words it:
`clamp(throughput * target_duration, 1, 2 * max_concurrent)`.  Written only to
be compared against `optimal_batch_size_of`, which is what the code computes. -/
def spec_clamp_batch_size (max_concurrent : Nat) (throughput target_duration : ℚ) : ℚ :=
  max 1 (min (throughput * target_duration) ((max_concurrent : ℚ) * 2))

/-- `adaptive_batch_size` (async_batch.py, lines 243-284). -/
def adaptive_batch_size {T E R : Type} (max_concurrent max_retries : Nat)
    (items : List T) (processor : T → Nat → Except E R)
    (target_duration sample_duration : ℚ) : BatchResult E R :=
  match items with
  | [] => ⟨0, 0, [], [], 0⟩
  | _ =>
    let initial_batch_size := min 10 items.length
    let sample_batch := items.take initial_batch_size
    let sample_result := process_batch max_concurrent max_retries sample_batch processor
      (some initial_batch_size)
    let optimal := optimal_batch_size_of max_concurrent items.length initial_batch_size
      target_duration sample_duration
    if initial_batch_size < items.length then
      let remaining_items := items.drop initial_batch_size
      let remaining_result := process_batch max_concurrent max_retries remaining_items
        processor (some optimal.toNat)
      ⟨sample_result.success_count + remaining_result.success_count,
       sample_result.error_count + remaining_result.error_count,
       sample_result.results ++ remaining_result.results,
       sample_result.errors ++ remaining_result.errors,
       sample_result.duration + remaining_result.duration⟩
    else sample_result

/-- C7 (amended): `adaptive_batch_size` warms up on a sample of at most 10
items, processes the remainder with the batch size
`min(max(1, int(throughput * target_duration)), len(items), 2 * max_concurrent)`
— the spec's `clamp(throughput * target_duration, 1, 2 * max_concurrent)`
additionally floored by `int()` and capped by the item count — and returns the
sample's result lists concatenated with the remainder's, in that order, with
counts summed accordingly. -/
theorem c7_adaptive_batch_amended {T E R : Type} (max_concurrent max_retries : Nat)
    (items : List T) (processor : T → Nat → Except E R)
    (target_duration sample_duration : ℚ) :
    (items.take (min 10 items.length)).length ≤ 10 ∧
    adaptive_batch_size max_concurrent max_retries items processor target_duration
        sample_duration =
      ⟨(process_batch max_concurrent max_retries (items.take (min 10 items.length))
          processor (some (min 10 items.length))).success_count +
        (process_batch max_concurrent max_retries (items.drop (min 10 items.length))
          processor (some (optimal_batch_size_of max_concurrent items.length
            (min 10 items.length) target_duration sample_duration).toNat)).success_count,
       (process_batch max_concurrent max_retries (items.take (min 10 items.length))
          processor (some (min 10 items.length))).error_count +
        (process_batch max_concurrent max_retries (items.drop (min 10 items.length))
          processor (some (optimal_batch_size_of max_concurrent items.length
            (min 10 items.length) target_duration sample_duration).toNat)).error_count,
       (process_batch max_concurrent max_retries (items.take (min 10 items.length))
          processor (some (min 10 items.length))).results ++
        (process_batch max_concurrent max_retries (items.drop (min 10 items.length))
          processor (some (optimal_batch_size_of max_concurrent items.length
            (min 10 items.length) target_duration sample_duration).toNat)).results,
       (process_batch max_concurrent max_retries (items.take (min 10 items.length))
          processor (some (min 10 items.length))).errors ++
        (process_batch max_concurrent max_retries (items.drop (min 10 items.length))
          processor (some (optimal_batch_size_of max_concurrent items.length
            (min 10 items.length) target_duration sample_duration).toNat)).errors,
       (process_batch max_concurrent max_retries (items.take (min 10 items.length))
          processor (some (min 10 items.length))).duration +
        (process_batch max_concurrent max_retries (items.drop (min 10 items.length))
          processor (some (optimal_batch_size_of max_concurrent items.length
            (min 10 items.length) target_duration sample_duration).toNat)).duration⟩ := by
  constructor
  · simp
  · cases items with
    | nil => simp [adaptive_batch_size, process_batch]
    | cons hd t =>
      simp only [adaptive_batch_size]
      split_ifs with hlt
      · rfl
      · have hdrop : (hd :: t).drop (min 10 (hd :: t).length) = [] := by
          apply List.drop_eq_nil_of_le
          omega
        rw [hdrop]
        simp [process_batch]

/-- C7 counterexample: the batch size the code derives is not
`clamp(throughput * target_duration, 1, 2 * max_concurrent)`.  With
`max_concurrent = 10`, 12 items, a 10-item sample measured at 0.1 s and
`target_duration = 1`, the throughput is 100 items/s: the spec formula clamps
to 20, but the code additionally caps by `len(items)` and computes 12. -/
theorem c7_counterexample :
    optimal_batch_size_of 10 12 10 1 (1 / 10) = 12 ∧
    spec_clamp_batch_size 10 ((10 : ℚ) / (1 / 10)) 1 = 20 ∧
    (optimal_batch_size_of 10 12 10 1 (1 / 10) : ℚ) ≠
      spec_clamp_batch_size 10 ((10 : ℚ) / (1 / 10)) 1 := by
  refine ⟨?_, ?_, ?_⟩ <;>
    norm_num [optimal_batch_size_of, spec_clamp_batch_size, pyInt]

/-!
### Concurrency model of `_process_with_semaphore` (async_batch.py, lines 89-100)

`process_batch` spawns one task per item; each task runs
`async with self.semaphore: for attempt in range(max_retries + 1): ...`.
The scheduler is modelled as a transition system: a task is `pending` until it
acquires a permit, `active k` while it holds the permit and is on attempt `k`
(awaiting the processor or sleeping the back-off), and `finished` once the
`async with` block exits (by `return` or by the final re-raise), which releases
the permit.  `asyncio.Semaphore(C)` is the `available` counter.  A task in
flight is exactly a task in an `active` phase.
-/

/-- Phase of one `_process_with_semaphore` task. -/
inductive TaskPhase
  | pending
  | active (attempt : Nat)
  | finished
deriving Repr, DecidableEq

/-- Scheduler state: permits left in the semaphore, and each task's phase. -/
structure SemState where
  available : Nat
  tasks : List TaskPhase
deriving Repr, DecidableEq

/-- Is a task in flight (inside the `async with`, holding a permit)? -/
def TaskPhase.isActive : TaskPhase → Bool
  | .active _ => true
  | _ => false

/-- Number of in-flight processor invocations. -/
def activeCount (ts : List TaskPhase) : Nat := ts.countP TaskPhase.isActive

/-- Interleaving semantics of the tasks of one batch.  `acquire`: a pending
task takes a permit when one is available and starts attempt 0 (line 92);
`retry`: attempt `k < max_retries` fails, the task sleeps the back-off and
moves to attempt `k + 1` WITHOUT touching the semaphore (lines 96-100);
`finish`: the task returns, or re-raises on its last attempt, leaving the
`async with` block and releasing its permit (lines 92, 95, 98). -/
inductive SemStep (max_retries : Nat) : SemState → SemState → Prop
  | acquire (av : Nat) (ts : List TaskPhase) (i : Nat)
      (h : ts[i]? = some .pending) (hav : 0 < av) :
      SemStep max_retries ⟨av, ts⟩ ⟨av - 1, ts.set i (.active 0)⟩
  | retry (av : Nat) (ts : List TaskPhase) (i k : Nat)
      (h : ts[i]? = some (.active k)) (hk : k < max_retries) :
      SemStep max_retries ⟨av, ts⟩ ⟨av, ts.set i (.active (k + 1))⟩
  | finish (av : Nat) (ts : List TaskPhase) (i k : Nat)
      (h : ts[i]? = some (.active k)) :
      SemStep max_retries ⟨av, ts⟩ ⟨av + 1, ts.set i .finished⟩

/-- Initial state of a batch of `n` items under `asyncio.Semaphore(C)`. -/
def SemInit (C n : Nat) : SemState := ⟨C, List.replicate n .pending⟩

/-- States reachable by interleaving the batch's tasks. -/
def SemReachable (C n max_retries : Nat) (s : SemState) : Prop :=
  Relation.ReflTransGen (SemStep max_retries) (SemInit C n) s

theorem countP_set_add (p : TaskPhase → Bool) (ts : List TaskPhase) :
    ∀ (i : Nat) (v w : TaskPhase), ts[i]? = some w →
    (ts.set i v).countP p + (if p w then 1 else 0) =
      ts.countP p + (if p v then 1 else 0) := by
  induction ts with
  | nil => intro i v w h; simp at h
  | cons hd t ih =>
    intro i v w h
    cases i with
    | zero =>
      simp only [List.getElem?_cons_zero, Option.some.injEq] at h
      subst h
      simp only [List.set_cons_zero, List.countP_cons]
      omega
    | succ j =>
      simp only [List.getElem?_cons_succ] at h
      simp only [List.set_cons_succ, List.countP_cons]
      have := ih j v w h
      omega

theorem semstep_preserves_sum {max_retries : Nat} {s s' : SemState}
    (hstep : SemStep max_retries s s') :
    activeCount s'.tasks + s'.available = activeCount s.tasks + s.available := by
  cases hstep with
  | acquire av ts i h hav =>
    have hc := countP_set_add TaskPhase.isActive ts i (.active 0) .pending h
    simp [TaskPhase.isActive] at hc
    simp only [activeCount]
    omega
  | retry av ts i k h hk =>
    have hc := countP_set_add TaskPhase.isActive ts i (.active (k + 1)) (.active k) h
    simp [TaskPhase.isActive] at hc
    simp only [activeCount]
    omega
  | finish av ts i k h =>
    have hc := countP_set_add TaskPhase.isActive ts i .finished (.active k) h
    simp [TaskPhase.isActive] at hc
    simp only [activeCount]
    omega

theorem semreachable_sum (C n max_retries : Nat) (s : SemState)
    (h : SemReachable C n max_retries s) :
    activeCount s.tasks + s.available = C := by
  induction h with
  | refl =>
    simp only [SemInit, activeCount]
    have hz : List.countP TaskPhase.isActive (List.replicate n TaskPhase.pending) = 0 := by
      apply List.countP_eq_zero.2
      intro a ha
      rw [List.eq_of_mem_replicate ha]
      simp [TaskPhase.isActive]
    rw [hz]
    omega
  | tail h1 h2 ih =>
    rw [semstep_preserves_sum h2]
    exact ih

theorem getElem?_some_lt_length {α : Type} {l : List α} {i : Nat} {w : α}
    (h : l[i]? = some w) : i < l.length := by
  by_contra hc
  rw [List.getElem?_eq_none (by omega)] at h
  exact Option.noConfusion h

/-- C2: concurrency bound and permit retention.  (1) In every reachable state
of a batch run under `asyncio.Semaphore(C)`, the permits held by in-flight
tasks and the permits left in the semaphore sum to `C`, so at no instant are
more than `C` processor invocations in flight.  (2) The transition a retrying
item takes between attempts keeps the semaphore counter unchanged — the permit
is held across attempts, not released and re-acquired.  (3) A permit is
released only by a task finishing (returning or re-raising after its last
attempt), never by a retry.  (4) An in-flight item stays in flight or
finishes; it never returns to the waiting state before exhausting its
attempts. -/
theorem c2_semaphore_bound :
    (∀ (C n max_retries : Nat) (s : SemState), SemReachable C n max_retries s →
      activeCount s.tasks + s.available = C ∧ activeCount s.tasks ≤ C) ∧
    (∀ (max_retries av : Nat) (ts : List TaskPhase) (i k : Nat),
      ts[i]? = some (.active k) → k < max_retries →
      SemStep max_retries ⟨av, ts⟩ ⟨av, ts.set i (.active (k + 1))⟩) ∧
    (∀ (max_retries : Nat) (s s' : SemState), SemStep max_retries s s' →
      s.available < s'.available →
      ∃ i k, s.tasks[i]? = some (.active k) ∧ s'.tasks = s.tasks.set i .finished) ∧
    (∀ (max_retries : Nat) (s s' : SemState) (i k : Nat), SemStep max_retries s s' →
      s.tasks[i]? = some (.active k) →
      (∃ k2, s'.tasks[i]? = some (.active k2)) ∨ s'.tasks[i]? = some .finished) := by
  refine ⟨?_, ?_, ?_, ?_⟩
  · intro C n max_retries s h
    have hsum := semreachable_sum C n max_retries s h
    exact ⟨hsum, by omega⟩
  · intro max_retries av ts i k h hk
    exact SemStep.retry av ts i k h hk
  · intro max_retries s s' hstep hav
    cases hstep with
    | acquire av ts j h hpos => simp at hav; omega
    | retry av ts j k h hk => simp at hav
    | finish av ts j k h => exact ⟨j, k, h, rfl⟩
  · intro max_retries s s' i k hstep hact
    have hlt : i < s.tasks.length := getElem?_some_lt_length hact
    cases hstep with
    | acquire av ts j h hpos =>
      by_cases hij : j = i
      · subst hij
        rw [h] at hact
        exact absurd hact (by simp)
      · left
        exact ⟨k, by rw [List.getElem?_set_ne hij]; exact hact⟩
    | retry av ts j k2 h hk =>
      by_cases hij : j = i
      · subst hij
        left
        exact ⟨k2 + 1, List.getElem?_set_eq_of_lt _ hlt⟩
      · left
        exact ⟨k, by rw [List.getElem?_set_ne hij]; exact hact⟩
    | finish av ts j k2 h =>
      by_cases hij : j = i
      · subst hij
        right
        exact List.getElem?_set_eq_of_lt _ hlt
      · left
        exact ⟨k, by rw [List.getElem?_set_ne hij]; exact hact⟩

/-- Witness: with `C = 1`, one item and `max_retries = 3`, the state after
`acquire` then one `retry` is reachable, satisfies the bound, and the retry
step left the semaphore at 0 — the permit was held across the attempts. -/
theorem c2_semaphore_bound_witness :
    SemReachable 1 1 3 ⟨0, [TaskPhase.active 1]⟩ ∧
    activeCount (⟨0, [TaskPhase.active 1]⟩ : SemState).tasks +
      (⟨0, [TaskPhase.active 1]⟩ : SemState).available = 1 ∧
    activeCount (⟨0, [TaskPhase.active 1]⟩ : SemState).tasks ≤ 1 ∧
    SemStep 3 ⟨0, [TaskPhase.active 0]⟩ ⟨0, [TaskPhase.active 1]⟩ := by
  have hreach : SemReachable 1 1 3 ⟨0, [TaskPhase.active 1]⟩ := by
    have h1 : SemStep 3 (SemInit 1 1) ⟨0, [TaskPhase.active 0]⟩ := by
      have hstep : SemStep 3 ⟨1, [TaskPhase.pending]⟩
          ⟨1 - 1, [TaskPhase.pending].set 0 (.active 0)⟩ :=
        SemStep.acquire 1 [TaskPhase.pending] 0 rfl (by omega)
      simpa [SemInit] using hstep
    have h2 : SemStep 3 ⟨0, [TaskPhase.active 0]⟩ ⟨0, [TaskPhase.active 1]⟩ :=
      c2_semaphore_bound.2.1 3 0 [TaskPhase.active 0] 0 0 rfl (by omega)
    exact Relation.ReflTransGen.tail (Relation.ReflTransGen.single h1) h2
  refine ⟨hreach, (c2_semaphore_bound.1 1 1 3 _ hreach).1,
    (c2_semaphore_bound.1 1 1 3 _ hreach).2,
    c2_semaphore_bound.2.1 3 0 [TaskPhase.active 0] 0 0 rfl (by omega)⟩

/-!
### `SearchOptimizer` match extraction (search_optimizer.py, lines 162-198)

`_find_matches_in_lines` compiles `re.compile(pattern, re.IGNORECASE)` and
applies `finditer` per line.  A general regex engine is outside this
embedding: the matcher is modelled for LITERAL patterns, where
`finditer` yields the leftmost non-overlapping occurrences of the pattern,
scanning left to right and resuming after each match's end (for the empty
pattern: one zero-width match per position, as in Python).  `IGNORECASE` on
literals is lower-casing both sides; positions refer to the original line
(lower-casing is per-character).
-/

/-- Leftmost non-overlapping occurrences of `pat` in the text, as
`(start, end)` offset pairs.  `pos` is the offset of `text`'s head in the
line; `blocked` is the end of the previous match, before which no new match
may start (this is how `finditer` resumes after a match). -/
def scanStep (pat : List Char) : List Char → Nat → Nat → List (Nat × Nat)
  | [], pos, blocked =>
    if pat = [] ∧ blocked ≤ pos then [(pos, pos)] else []
  | c :: rest, pos, blocked =>
    if blocked ≤ pos ∧ pat.isPrefixOf (c :: rest) then
      (pos, pos + pat.length) :: scanStep pat rest (pos + 1) (pos + max pat.length 1)
    else
      scanStep pat rest (pos + 1) blocked

/-- `list(regex.finditer(line))` for a literal pattern under `re.IGNORECASE`:
the spans of the non-overlapping matches, in order. -/
def findMatchesInLine (pattern line : String) : List (Nat × Nat) :=
  scanStep (pattern.toList.map Char.toLower) (line.toList.map Char.toLower) 0 0

/-- `SearchResult` (search_optimizer.py, lines 18-27). -/
structure SearchResult where
  file_path : String
  line_number : Nat
  line_content : String
  match_start : Nat
  match_end : Nat
  context_before : Option String
  context_after : Option String
deriving Repr, DecidableEq

/-- The body of `_find_matches_in_lines`'s per-line loop (lines 169-196) for
the line at 0-based index `i`: if the line has matches, compute the shared
context strings and emit one `SearchResult` per match. -/
def lineResults (pattern file_path : String) (lines : List String)
    (context_lines line_offset i : Nat) (line : String) : List SearchResult :=
  let ms := findMatchesInLine pattern line
  if ms = [] then []
  else
    let context_before :=
      if 0 < context_lines then
        let start_ctx := i - context_lines
        if start_ctx < i then
          some (String.intercalate "\n" ((lines.drop start_ctx).take (i - start_ctx)))
        else none
      else none
    let context_after :=
      if 0 < context_lines then
        let end_ctx := min lines.length (i + context_lines + 1)
        if i + 1 < end_ctx then
          some (String.intercalate "\n" ((lines.drop (i + 1)).take (end_ctx - (i + 1))))
        else none
      else none
    ms.map (fun m =>
      ⟨file_path, i + 1 + line_offset, line, m.1, m.2, context_before, context_after⟩)

/-- `_find_matches_in_lines` (lines 162-198): `enumerate(lines)` and collect
the per-line results in order. -/
def find_matches_in_lines (pattern file_path : String) (lines : List String)
    (context_lines : Nat) (line_offset : Nat) : List SearchResult :=
  (lines.enum.map (fun q =>
    lineResults pattern file_path lines context_lines line_offset q.1 q.2)).flatten

theorem scanStep_spec (pat : List Char) :
    ∀ (text : List Char) (pos blocked : Nat),
    (∀ m ∈ scanStep pat text pos blocked,
      pos ≤ m.1 ∧ blocked ≤ m.1 ∧ m.2 = m.1 + pat.length) ∧
    List.Pairwise (fun a b => a.2 ≤ b.1) (scanStep pat text pos blocked) := by
  intro text
  induction text with
  | nil =>
    intro pos blocked
    constructor
    · intro m hm
      simp only [scanStep] at hm
      split_ifs at hm with hc
      · simp only [List.mem_singleton] at hm
        subst hm
        simp [hc.1, hc.2]
      · simp at hm
    · simp only [scanStep]
      split_ifs <;> simp
  | cons c rest ih =>
    intro pos blocked
    constructor
    · intro m hm
      simp only [scanStep] at hm
      split_ifs at hm with hc
      · rcases List.mem_cons.1 hm with rfl | hm2
        · exact ⟨Nat.le_refl _, hc.1, rfl⟩
        · obtain ⟨h1, h2, h3⟩ := (ih (pos + 1) (pos + max pat.length 1)).1 m hm2
          exact ⟨by omega, by omega, h3⟩
      · obtain ⟨h1, h2, h3⟩ := (ih (pos + 1) blocked).1 m hm
        exact ⟨by omega, h2, h3⟩
    · simp only [scanStep]
      split_ifs with hc
      · refine List.Pairwise.cons ?_ (ih (pos + 1) (pos + max pat.length 1)).2
        intro m hm
        obtain ⟨h1, h2, h3⟩ := (ih (pos + 1) (pos + max pat.length 1)).1 m hm
        simp only
        omega
      · exact (ih (pos + 1) blocked).2

theorem lineResults_map_spans (pattern file_path : String) (lines : List String)
    (context_lines line_offset i : Nat) (line : String) :
    (lineResults pattern file_path lines context_lines line_offset i line).map
      (fun r => (r.match_start, r.match_end)) = findMatchesInLine pattern line := by
  by_cases h : findMatchesInLine pattern line = []
  · simp [lineResults, h]
  · simp only [lineResults, if_neg h]
    rw [List.map_map]
    conv_rhs => rw [← List.map_id (findMatchesInLine pattern line)]
    apply List.map_congr_left
    intro m _
    rfl

theorem lineResults_length (pattern file_path : String) (lines : List String)
    (context_lines line_offset i : Nat) (line : String) :
    (lineResults pattern file_path lines context_lines line_offset i line).length =
      (findMatchesInLine pattern line).length := by
  by_cases h : findMatchesInLine pattern line = []
  · simp [lineResults, h]
  · simp only [lineResults, if_neg h, List.length_map]

theorem lineResults_line_number (pattern file_path : String) (lines : List String)
    (context_lines line_offset i : Nat) (line : String) (r : SearchResult)
    (hr : r ∈ lineResults pattern file_path lines context_lines line_offset i line) :
    r.line_number = i + 1 + line_offset := by
  by_cases h : findMatchesInLine pattern line = []
  · simp [lineResults, h] at hr
  · simp only [lineResults, if_neg h] at hr
    obtain ⟨m, _, rfl⟩ := List.mem_map.1 hr
    rfl

theorem fmil_count_tail_zero (pattern file_path : String) (all_lines : List String)
    (context_lines line_offset : Nat) :
    ∀ (iter : List String) (start ln : Nat), ln < start + 1 + line_offset →
    (((iter.enumFrom start).map (fun q =>
        lineResults pattern file_path all_lines context_lines line_offset q.1 q.2)).flatten).countP
        (fun r => r.line_number == ln) = 0 := by
  intro iter
  induction iter with
  | nil => intro start ln hln; simp
  | cons hd t ih =>
    intro start ln hln
    rw [List.enumFrom_cons]
    simp only [List.map_cons, List.flatten_cons, List.countP_append]
    rw [ih (start + 1) ln (by omega), List.countP_eq_zero.2]
    intro r hr
    have := lineResults_line_number pattern file_path all_lines context_lines
      line_offset start hd r hr
    simp only [beq_iff_eq]
    omega

theorem fmil_count_aux (pattern file_path : String) (all_lines : List String)
    (context_lines line_offset : Nat) :
    ∀ (iter : List String) (start i : Nat) (hi : i < iter.length),
    (((iter.enumFrom start).map (fun q =>
        lineResults pattern file_path all_lines context_lines line_offset q.1 q.2)).flatten).countP
        (fun r => r.line_number == start + i + 1 + line_offset) =
      (findMatchesInLine pattern iter[i]).length := by
  intro iter
  induction iter with
  | nil => intro start i hi; simp at hi
  | cons hd t ih =>
    intro start i hi
    rw [List.enumFrom_cons]
    simp only [List.map_cons, List.flatten_cons, List.countP_append]
    cases i with
    | zero =>
      rw [fmil_count_tail_zero pattern file_path all_lines context_lines line_offset t
        (start + 1) (start + 0 + 1 + line_offset) (by omega)]
      rw [List.countP_eq_length.2]
      · simp only [List.getElem_cons_zero, Nat.add_zero]
        exact lineResults_length pattern file_path all_lines context_lines line_offset start hd
      · intro r hr
        have := lineResults_line_number pattern file_path all_lines context_lines
          line_offset start hd r hr
        simp only [beq_iff_eq]
        omega
    | succ j =>
      rw [List.countP_eq_zero.2]
      · have heq : start + (j + 1) + 1 + line_offset = (start + 1) + j + 1 + line_offset := by
          omega
        rw [heq, ih (start + 1) j (by simpa using hi)]
        simp
      · intro r hr
        have := lineResults_line_number pattern file_path all_lines context_lines
          line_offset start hd r hr
        simp only [beq_iff_eq]
        omega

/-- C9: match extraction.  (1) For every line of the input, the number of
`SearchResult`s produced for that line equals the number of non-overlapping
matches of the (case-insensitively applied) pattern in it; (2) each per-line
result carries its own match's `(start, end)` span, and the spans of a line's
matches are pairwise non-overlapping (each ends before the next starts);
(3) the line `"foo foo"` against pattern `"foo"` yields spans `(0,3)` and
`(4,7)` — exactly two `SearchResult`s — and matching is case-insensitive. -/
theorem c9_match_extraction :
    (∀ (pattern file_path : String) (lines : List String)
      (context_lines line_offset i : Nat) (hi : i < lines.length),
      (find_matches_in_lines pattern file_path lines context_lines line_offset).countP
          (fun r => r.line_number == i + 1 + line_offset) =
        (findMatchesInLine pattern (lines.get ⟨i, hi⟩)).length) ∧
    (∀ (pattern file_path : String) (lines : List String)
      (context_lines line_offset i : Nat) (line : String),
      (lineResults pattern file_path lines context_lines line_offset i line).map
          (fun r => (r.match_start, r.match_end)) = findMatchesInLine pattern line ∧
      List.Pairwise (fun a b => a.2 ≤ b.1) (findMatchesInLine pattern line)) ∧
    (findMatchesInLine "foo" "foo foo" = [(0, 3), (4, 7)] ∧
      (find_matches_in_lines "foo" "f.py" ["foo foo"] 0 0).length = 2 ∧
      findMatchesInLine "FoO" "fOo FOO" = [(0, 3), (4, 7)]) := by
  refine ⟨?_, ?_, ?_, ?_, ?_⟩
  · intro pattern file_path lines context_lines line_offset i hi
    have haux := fmil_count_aux pattern file_path lines context_lines line_offset
      lines 0 i hi
    simp only [Nat.zero_add] at haux
    rw [find_matches_in_lines, List.enum]
    rw [List.get_eq_getElem]
    exact haux
  · intro pattern file_path lines context_lines line_offset i line
    refine ⟨lineResults_map_spans pattern file_path lines context_lines line_offset i line, ?_⟩
    exact (scanStep_spec (pattern.toList.map Char.toLower)
      (line.toList.map Char.toLower) 0 0).2
  · decide
  · decide
  · decide

theorem c9_match_extraction_witness :
    0 < (["foo foo"] : List String).length ∧
    (find_matches_in_lines "foo" "f.py" ["foo foo"] 0 0).countP
        (fun r => r.line_number == 0 + 1 + 0) =
      (findMatchesInLine "foo" ((["foo foo"] : List String).get ⟨0, by decide⟩)).length :=
  ⟨by decide, c9_match_extraction.1 "foo" "f.py" ["foo foo"] 0 0 0 (by decide)⟩

/-!
### `SearchOptimizer.build_file_index` (search_optimizer.py, lines 200-256)

The glob result is a list of `(path, IdxFile)` pairs.  A file's content is
represented by its per-line token lists — the output of
`re.findall(r'\b\w+\b', line.lower())` on each line, tokenisation being
outside this embedding — so `lines_count = tokens.length`.  `time.time()` at
indexing is the parameter `now`.  Tasks of one batch of 10 write distinct keys
of `file_indices`, so the gather is modelled as an in-order fold.
-/

/-- What `build_file_index` sees of one globbed path. -/
structure IdxFile where
  is_file : Bool
  skip : Bool
  size : Nat
  st_mtime : ℚ
  readable : Bool
  tokens : List (List String)
deriving Repr, DecidableEq

/-- `FileIndex` (search_optimizer.py, lines 30-38); `path` is kept as the
string key. -/
structure FileIndex where
  path : String
  size : Nat
  modified_time : ℚ
  lines_count : Nat
  word_index : List (String × List Nat)
  last_indexed : ℚ
deriving Repr, DecidableEq

/-- One `word_index[word].add(line_num)` step (a `defaultdict(set)` keyed in
first-occurrence order; a line-number set is a duplicate-free list). -/
def addWord (wi : List (String × List Nat)) (w : String) (ln : Nat) :
    List (String × List Nat) :=
  match assocFind wi w with
  | none => wi ++ [(w, [ln])]
  | some lns => assocSet wi w (if ln ∈ lns then lns else lns ++ [ln])

/-- The word-index loop of `_index_single_file` (lines 238-242):
`enumerate(lines, 1)`, then every token of the line. -/
def buildWordIndex (tokens : List (List String)) : List (String × List Nat) :=
  tokens.enum.foldl
    (fun wi q => q.2.foldl (fun wi2 w => addWord wi2 w (q.1 + 1)) wi) []

/-- The `FileIndex` stored for a freshly indexed file (lines 245-253). -/
def mkFileIndex (now : ℚ) (path : String) (f : IdxFile) : FileIndex :=
  ⟨path, f.size, f.st_mtime, f.tokens.length, buildWordIndex f.tokens, now⟩

/-- `_index_single_file` (lines 229-256): reading may raise, which is caught
and indexes nothing; otherwise the stored index for the path is replaced. -/
def index_single_file (now : ℚ) (path : String) (f : IdxFile)
    (st : List (String × FileIndex)) : List (String × FileIndex) :=
  if f.readable = false then st
  else assocSet st path (mkFileIndex now path f)

/-- The staleness test of `build_file_index` (lines 214-215): no stored index,
or the stored index's recorded `modified_time` is older than the on-disk
`st_mtime`. -/
def needs_reindex (st : List (String × FileIndex)) (path : String) (f : IdxFile) : Bool :=
  match assocFind st path with
  | none => true
  | some idx => decide (idx.modified_time < f.st_mtime)

/-- The candidate filter of `build_file_index` (lines 206-208): regular file,
not skipped, strictly under `max_file_size`. -/
def idx_candidate (max_file_size : Nat) (f : IdxFile) : Bool :=
  f.is_file && !f.skip && decide (f.size < max_file_size)

/-- `build_file_index` (lines 200-222): select the stale candidates against
the state at the start of the pass, then index them in batches of 10. -/
def build_file_index (now : ℚ) (max_file_size : Nat) (fs : List (String × IdxFile))
    (st : List (String × FileIndex)) : List (String × FileIndex) :=
  let files_to_index := fs.filter (fun q =>
    idx_candidate max_file_size q.2 && needs_reindex st q.1 q.2)
  ((chunksOf 10 files_to_index).flatten).foldl
    (fun st2 q => index_single_file now q.1 q.2 st2) st

/-- The staleness criterion as the spec words it: stale when the on-disk
modification time exceeds the stored `last_indexed` timestamp.  Written only
to be compared with `needs_reindex`, which is what the code tests. -/
def spec_stale (st : List (String × FileIndex)) (path : String) (f : IdxFile) : Bool :=
  match assocFind st path with
  | none => true
  | some idx => decide (idx.last_indexed < f.st_mtime)

theorem assocFind_assocSet_self {β : Type} (l : List (String × β)) (k : String) (v : β) :
    assocFind (assocSet l k v) k = some v := by
  induction l with
  | nil => simp [assocSet, assocFind]
  | cons p t ih =>
    obtain ⟨a, b⟩ := p
    by_cases hak : a = k
    · simp [assocSet, assocFind, hak]
    · simp [assocSet, assocFind, hak, ih]

theorem assocFind_assocSet_ne {β : Type} (l : List (String × β)) (k j : String) (v : β)
    (h : j ≠ k) : assocFind (assocSet l k v) j = assocFind l j := by
  induction l with
  | nil =>
    simp only [assocSet, assocFind]
    rw [if_neg (fun hh : k = j => h hh.symm)]
  | cons p t ih =>
    obtain ⟨a, b⟩ := p
    by_cases hak : a = k
    · subst hak
      simp only [assocSet, if_pos rfl, assocFind]
      rw [if_neg (fun hh : a = j => h (hh.symm.trans rfl))]
      rw [if_neg (fun hh : a = j => h hh.symm)]
    · simp only [assocSet, if_neg hak, assocFind]
      by_cases haj : a = j <;> simp [haj, ih]

theorem assoc_mem_unique {β : Type} {l : List (String × β)} {p : String} {f f2 : β}
    (hnd : (l.map Prod.fst).Nodup) (h1 : (p, f) ∈ l) (h2 : (p, f2) ∈ l) : f = f2 := by
  induction l with
  | nil => simp at h1
  | cons q t ih =>
    simp only [List.map_cons, List.nodup_cons] at hnd
    rcases List.mem_cons.1 h1 with rfl | hm1
    · rcases List.mem_cons.1 h2 with hq | hm2
      · exact (Prod.mk.injEq _ _ _ _ ▸ hq.symm).2
      · exact absurd (List.mem_map_of_mem Prod.fst hm2) hnd.1
    · rcases List.mem_cons.1 h2 with rfl | hm2
      · exact absurd (List.mem_map_of_mem Prod.fst hm1) hnd.1
      · exact ih hnd.2 hm1 hm2

theorem fold_index_not_mem (now : ℚ) (l : List (String × IdxFile)) :
    ∀ (st2 : List (String × FileIndex)) (p : String), p ∉ l.map Prod.fst →
    assocFind (l.foldl (fun s q => index_single_file now q.1 q.2 s) st2) p =
      assocFind st2 p := by
  induction l with
  | nil => intro st2 p _; rfl
  | cons q t ih =>
    intro st2 p hp
    simp only [List.map_cons, List.mem_cons, not_or] at hp
    rw [List.foldl_cons, ih _ p hp.2]
    simp only [index_single_file]
    split_ifs with hr
    · rfl
    · exact assocFind_assocSet_ne _ _ _ _ hp.1

theorem fold_index_mem (now : ℚ) (l : List (String × IdxFile))
    (hnd : (l.map Prod.fst).Nodup) (p : String) (f : IdxFile) (hmem : (p, f) ∈ l) :
    ∀ st2 : List (String × FileIndex),
    assocFind (l.foldl (fun s q => index_single_file now q.1 q.2 s) st2) p =
      (if f.readable = true then some (mkFileIndex now p f) else assocFind st2 p) := by
  induction l with
  | nil => simp at hmem
  | cons q t ih =>
    intro st2
    simp only [List.map_cons, List.nodup_cons] at hnd
    by_cases hq : q.1 = p
    · have hqf : q = (p, f) := by
        rcases List.mem_cons.1 hmem with rfl | hm
        · rfl
        · exact absurd (hq ▸ List.mem_map_of_mem Prod.fst hm) hnd.1
      subst hqf
      have hnp : p ∉ t.map Prod.fst := hnd.1
      rw [List.foldl_cons, fold_index_not_mem now t _ p hnp]
      simp only [index_single_file]
      cases hfr : f.readable with
      | false => simp [hfr]
      | true => simp [hfr, assocFind_assocSet_self]
    · have hm : (p, f) ∈ t := by
        rcases List.mem_cons.1 hmem with hq2 | hm
        · exact absurd (congrArg Prod.fst hq2).symm hq
        · exact hm
      rw [List.foldl_cons, ih hnd.2 hm]
      split_ifs with hr
      · rfl
      · simp only [index_single_file]
        split_ifs with hr2
        · rfl
        · exact assocFind_assocSet_ne _ _ _ _ (fun hh => hq hh.symm)

/-- C6 (amended): `build_file_index` (re)indexes exactly those candidate files
(regular, not skipped, under `max_file_size`) that have no stored index or
whose on-disk modification time exceeds the stored index's recorded
`modified_time` — not its `last_indexed` timestamp; staleness is evaluated
against the state at the start of the pass, lazily.  A readable stale
candidate's stored index is replaced (its `last_indexed` becoming the current
time); every other path keeps its stored index unchanged; an unreadable stale
candidate indexes nothing. -/
theorem c6_build_index_amended (now : ℚ) (max_file_size : Nat)
    (fs : List (String × IdxFile)) (st : List (String × FileIndex))
    (hnd : (fs.map Prod.fst).Nodup) :
    (∀ (p : String) (f : IdxFile), (p, f) ∈ fs →
      (idx_candidate max_file_size f && needs_reindex st p f) = true →
      assocFind (build_file_index now max_file_size fs st) p =
        (if f.readable = true then some (mkFileIndex now p f) else assocFind st p)) ∧
    (∀ (p : String) (f : IdxFile), (p, f) ∈ fs →
      (idx_candidate max_file_size f && needs_reindex st p f) = false →
      assocFind (build_file_index now max_file_size fs st) p = assocFind st p) ∧
    (∀ p : String, p ∉ fs.map Prod.fst →
      assocFind (build_file_index now max_file_size fs st) p = assocFind st p) := by
  have hndf : ((fs.filter (fun q =>
      idx_candidate max_file_size q.2 && needs_reindex st q.1 q.2)).map Prod.fst).Nodup :=
    hnd.sublist (List.Sublist.map Prod.fst (List.filter_sublist fs))
  have hbuild : build_file_index now max_file_size fs st =
      (fs.filter (fun q => idx_candidate max_file_size q.2 && needs_reindex st q.1 q.2)).foldl
        (fun st2 q => index_single_file now q.1 q.2 st2) st := by
    rw [build_file_index, chunksOf_flatten 10 (by omega)]
  refine ⟨?_, ?_, ?_⟩
  · intro p f hmem hpred
    rw [hbuild]
    exact fold_index_mem now _ hndf p f (List.mem_filter.2 ⟨hmem, hpred⟩) st
  · intro p f hmem hpred
    rw [hbuild]
    apply fold_index_not_mem
    intro hp
    obtain ⟨⟨p2, f2⟩, hqm, hq⟩ := List.mem_map.1 hp
    obtain ⟨hin, hptrue⟩ := List.mem_filter.1 hqm
    have hp2 : p2 = p := hq
    subst hp2
    have : f2 = f := assoc_mem_unique hnd hin hmem
    subst this
    rw [hpred] at hptrue
    exact Bool.noConfusion hptrue
  · intro p hp
    rw [hbuild]
    apply fold_index_not_mem
    intro hpf
    obtain ⟨q, hqm, hq⟩ := List.mem_map.1 hpf
    exact hp (hq ▸ List.mem_map_of_mem Prod.fst (List.mem_filter.1 hqm).1)

theorem c6_build_index_amended_witness :
    (([("a.py", (⟨true, false, 10, 120, true, []⟩ : IdxFile))].map Prod.fst).Nodup) ∧
    ("a.py", (⟨true, false, 10, 120, true, []⟩ : IdxFile)) ∈
      [("a.py", (⟨true, false, 10, 120, true, []⟩ : IdxFile))] ∧
    (idx_candidate 1000 (⟨true, false, 10, 120, true, []⟩ : IdxFile) &&
      needs_reindex [("a.py", (⟨"a.py", 10, 100, 0, [], 150⟩ : FileIndex))] "a.py"
        (⟨true, false, 10, 120, true, []⟩ : IdxFile)) = true ∧
    assocFind (build_file_index 200 1000
        [("a.py", (⟨true, false, 10, 120, true, []⟩ : IdxFile))]
        [("a.py", (⟨"a.py", 10, 100, 0, [], 150⟩ : FileIndex))]) "a.py" =
      (if (⟨true, false, 10, 120, true, []⟩ : IdxFile).readable = true
        then some (mkFileIndex 200 "a.py" (⟨true, false, 10, 120, true, []⟩ : IdxFile))
        else assocFind [("a.py", (⟨"a.py", 10, 100, 0, [], 150⟩ : FileIndex))] "a.py") :=
  ⟨by decide, by decide, by decide,
    (c6_build_index_amended 200 1000
      [("a.py", (⟨true, false, 10, 120, true, []⟩ : IdxFile))]
      [("a.py", (⟨"a.py", 10, 100, 0, [], 150⟩ : FileIndex))] (by decide)).1
      "a.py" (⟨true, false, 10, 120, true, []⟩ : IdxFile) (by decide) (by decide)⟩

/-- C6 counterexample: staleness is NOT "modification time exceeds
`last_indexed`".  A file with on-disk mtime 120 whose stored index records
`modified_time = 100` and `last_indexed = 150` is not stale by the claim's
criterion (120 < 150), yet `build_file_index` re-indexes it, because the code
compares against the recorded `modified_time` (100 < 120). -/
theorem c6_counterexample :
    spec_stale [("a.py", (⟨"a.py", 10, 100, 0, [], 150⟩ : FileIndex))] "a.py"
      (⟨true, false, 10, 120, true, []⟩ : IdxFile) = false ∧
    assocFind (build_file_index 200 1000
        [("a.py", (⟨true, false, 10, 120, true, []⟩ : IdxFile))]
        [("a.py", (⟨"a.py", 10, 100, 0, [], 150⟩ : FileIndex))]) "a.py" =
      some (mkFileIndex 200 "a.py" (⟨true, false, 10, 120, true, []⟩ : IdxFile)) ∧
    some (mkFileIndex 200 "a.py" (⟨true, false, 10, 120, true, []⟩ : IdxFile)) ≠
      assocFind [("a.py", (⟨"a.py", 10, 100, 0, [], 150⟩ : FileIndex))] "a.py" := by
  refine ⟨by decide, ?_, by decide⟩
  rw [build_file_index, chunksOf_flatten 10 (by omega)]
  have hfilter : ([("a.py", (⟨true, false, 10, 120, true, []⟩ : IdxFile))].filter
      (fun q => idx_candidate 1000 q.2 &&
        needs_reindex [("a.py", (⟨"a.py", 10, 100, 0, [], 150⟩ : FileIndex))] q.1 q.2)) =
      [("a.py", (⟨true, false, 10, 120, true, []⟩ : IdxFile))] := by decide
  rw [hfilter, List.foldl_cons, List.foldl_nil]
  simp [index_single_file, assocFind_assocSet_self]

end VibeCLI
